/-
Verification of the fastgql query-execution pipeline.

This file gives a shallow embedding, in Lean 4, of the parts of fastgql that
the specification talks about:

* the bounded LRU cache for translated documents
  (`fastgql/execute/utils.py`, class `CacheDict`) together with the way
  `Executor.execute` actually accesses it (`fastgql/execute/executor.py`);
* the SQL query builder (`fastgql/query_builders/sql/query_builder.py`);
* the GraphQL document translator (`fastgql/gql_ast/translator.py`);
* the resolver (`fastgql/execute/resolver.py`).

Python strings that are inspected character by character (the SQL builder's
text surgery) are modelled as `List Char`; Python dicts are modelled as
association lists with Python's dict semantics (updating an existing key keeps
its position, inserting a fresh key appends at the end).  Python exceptions
are modelled with `Except`.  Where the source relies on CPython object
identity (`is`) as well as equality (`==`/`!=`), values are modelled as a pair
of an object id and a payload, so that both relations are expressible.
-/
import Mathlib

set_option linter.unusedVariables false
set_option maxRecDepth 16000
set_option maxHeartbeats 2000000

namespace FastGQL

/-! ## Python dict as an association list

`dinsert` is `d[k] = v`: an existing key keeps its position in the dict's
iteration order and only its value is replaced; a fresh key is appended at the
end.  `dlookup` is `d.get(k)` / `d[k]`. -/

def dinsert {κ α : Type} [DecidableEq κ] (k : κ) (v : α) : List (κ × α) → List (κ × α)
  | [] => [(k, v)]
  | (k', v') :: rest => if k' = k then (k, v) :: rest else (k', v') :: dinsert k v rest

def dlookup {κ α : Type} [DecidableEq κ] (k : κ) : List (κ × α) → Option α
  | [] => none
  | (k', v') :: rest => if k' = k then some v' else dlookup k rest

def dmem {κ α : Type} [DecidableEq κ] (k : κ) (d : List (κ × α)) : Bool :=
  (dlookup k d).isSome

/-- `del d[k]` for the single occurrence of `k` (dict keys are unique). -/
def dremove {κ α : Type} [DecidableEq κ] (k : κ) : List (κ × α) → List (κ × α)
  | [] => []
  | (k', v') :: rest => if k' = k then rest else (k', v') :: dremove k rest

/-! ## CacheDict (`fastgql/execute/utils.py`, lines 38-59)

`CacheDict` subclasses `collections.OrderedDict`; the list below is kept in
the ordered-dict's iteration order, head = oldest / least recently used
(`next(iter(self))` in the source is the head, `move_to_end` moves to the
tail).  `__init__` asserts `cache_len > 0`. -/

structure CacheDict (α : Type) where
  entries : List (String × α)
  cacheLen : Nat

/-- One bounded pass of the `while len(self) > self.cache_len: del oldest`
loop of `CacheDict.__setitem__`.  Each iteration drops one entry, so the loop
exits after at most `e.length` iterations; the explicit counter is only a
termination bound and is always started at `e.length`. -/
def evictGo (cap : Nat) : Nat → List (String × α) → List (String × α)
  | 0, e => e
  | n + 1, e => if cap < e.length then evictGo cap n (e.drop 1) else e

def evictWhile (cap : Nat) (e : List (String × α)) : List (String × α) :=
  evictGo cap e.length e

/-- `CacheDict.__setitem__`: store the value, `move_to_end`, then evict
least-recently-used entries while over capacity. -/
def CacheDict.setItem (c : CacheDict α) (k : String) (v : α) : CacheDict α :=
  { c with entries := evictWhile c.cacheLen (dremove k c.entries ++ [(k, v)]) }

/-- `CacheDict.__getitem__`: look the key up and `move_to_end` (a *read*
refreshes recency).  A missing key raises `KeyError` in Python; here the
`none` branch returns the unchanged dict together with `none`. -/
def CacheDict.getItem (c : CacheDict α) (k : String) : Option α × CacheDict α :=
  match dlookup k c.entries with
  | none => (none, c)
  | some v => (some v, { c with entries := dremove k c.entries ++ [(k, v)] })

/-- `dict.get`, which is what `Executor.execute` calls
(`self.root_nodes_cache.get(source)`).  CPython's built-in `dict.get` does a
plain hash-table lookup and does **not** dispatch to a subclass's overridden
`__getitem__`, so no `move_to_end` happens: a read through this path leaves
the recency order untouched. -/
def CacheDict.dictGet (c : CacheDict α) (k : String) : Option α :=
  dlookup k c.entries

/-- The cache interaction of `Executor.execute` (executor.py lines 60-96) with
`use_cache=True`: read through `dict.get`; on a miss translate and store the
result with `self.root_nodes_cache[source] = root_nodes` (which is
`CacheDict.__setitem__`).  On a hit nothing is written back.  `translate`
stands for the parse/validate/translate pipeline, whose details are irrelevant
to the cache behaviour. -/
def executeCacheStep (c : CacheDict α) (source : String) (translate : String → α) :
    CacheDict α × α :=
  match c.dictGet source with
  | some nodes => (c, nodes)
  | none => (c.setItem source (translate source), translate source)

/-- A sequence of `Executor.execute` cache interactions (identity
translation), keeping only the cache state. -/
def execChain (c : CacheDict String) (qs : List String) : CacheDict String :=
  qs.foldl (fun c₂ q => (executeCacheStep c₂ q (fun s => s)).1) c

/-! ## Strings as `List Char`

The SQL query builder (`fastgql/query_builders/sql/query_builder.py`) does
character-level surgery on its query text (regex substitution, `str.replace`,
`str.strip`, `str.lower`, `str.startswith`), so its strings are modelled as
`List Char`. -/

abbrev Str := List Char

/-- A single-quote character.  Quotes that the builder writes into SQL text
are built from this constant rather than written inside string literals. -/
def sq : Char := Char.ofNat 39

/-- Python `sep.join(parts)`. -/
def joinSep (sep : Str) : List Str → Str
  | [] => []
  | [s] => s
  | s :: rest => s ++ sep ++ joinSep sep rest

def lowerStr (s : Str) : Str := s.map Char.toLower

/-- Python `str.strip()` (whitespace on both ends). -/
def pyStrip (s : Str) : Str :=
  ((s.dropWhile fun c => c.isWhitespace).reverse.dropWhile fun c => c.isWhitespace).reverse

/-- Python `str.replace(pat, rep)` for a non-empty pattern `p :: ps`:
left-to-right, non-overlapping.  The scan is written with an explicit
character budget (always started at the string length, and irrelevant beyond
it — see `pyReplaceGo_fuel`) so that it is structurally recursive; each step
consumes at least one input character. -/
def pyReplaceGo (p : Char) (ps rep : Str) : Nat → Str → Str
  | _, [] => []
  | 0, s => s
  | f + 1, c :: rest =>
    if c = p && List.isPrefixOf ps rest then
      rep ++ pyReplaceGo p ps rep f (rest.drop ps.length)
    else c :: pyReplaceGo p ps rep f rest

def pyReplace (p : Char) (ps rep : Str) (s : Str) : Str :=
  pyReplaceGo p ps rep s.length s

/-- Truthiness of an optional Python string (`if self.where:` is false for
both `None` and the empty string). -/
def pyTruthyStr : Option Str → Bool
  | none => false
  | some s => !s.isEmpty

/-! ## SQL QueryBuilder data model
(`fastgql/query_builders/sql/query_builder.py`) -/

/-- A Python runtime value held in a builder `variables` dict.  `oid` models
CPython object identity (the source's `is` comparison in `build_subquery`
compares `oid`); `pv` models the payload compared by `==` / `!=` (used by
`add_variable`). -/
structure PyVal where
  oid : Nat
  pv : Int
deriving DecidableEq, Repr

def pyIs (a b : PyVal) : Bool := a.oid == b.oid

def pyEq (a b : PyVal) : Bool := a.pv == b.pv

structure CTE where
  cte_str : Str
  join_str : Str
deriving DecidableEq, Repr

inductive Cardinality where
  | one
  | many
deriving DecidableEq, Repr

/-- The fields of `QueryBuilder` (a pydantic model in the source).  The
`selections` element type is a parameter so that the mutual recursion with
`Selection` below can go through; `where_` is the source's `where` field and
`pattern_to_replace` is kept as a head/tail pair (the source's randomly
generated pattern is always a non-empty string). -/
structure QBData (σ : Type) where
  table_name : Str
  table_alias : Option Str
  cardinality : Cardinality
  selections : List σ
  variables_ : List (Str × PyVal)
  ctes : List CTE
  from_ : Option Str
  where_ : Option Str
  order_by : Option Str
  offset : Option Str
  limit : Option Str
  full_query_str : Option Str
  pattern_to_replace : Option (Char × Str)

mutual
inductive QueryBuilder where
  | mk : QBData Selection → QueryBuilder

/-- `SelectionField` (name, path, variables) and `SelectionSub` (name, qb). -/
inductive Selection where
  | field (name : Str) (path : Str) (svariables : Option (List (Str × PyVal)))
  | sub (name : Str) (qb : QueryBuilder)
end

def QueryBuilder.d : QueryBuilder → QBData Selection
  | .mk data => data

/-- A fresh builder, as produced by `QueryBuilder(table_name=…, cardinality=…)`
with every optional field left at its default. -/
def mkQB (table_name : Str) (cardinality : Cardinality) : QueryBuilder :=
  .mk ⟨table_name, none, cardinality, [], [], [], none, none, none, none, none, none, none⟩

/-- `QueryBuilder.add_variable`.  The source raises only when the key is
present, `replace` was not passed and the stored value is `!=` to the new one;
in every non-raising path it executes `self.variables[key] = val`.  (Source
error messages interpolate the key; the model keeps them constant.) -/
def QueryBuilder.add_variable (qb : QueryBuilder) (key : Str) (val : PyVal)
    (replace : Bool) : Except String QueryBuilder :=
  match dlookup key qb.d.variables_ with
  | some existing =>
    if !replace && !pyEq existing val then
      .error "Key already exists in variables so you cannot add it."
    else
      .ok (.mk { qb.d with variables_ := dinsert key val qb.d.variables_ })
  | none => .ok (.mk { qb.d with variables_ := dinsert key val qb.d.variables_ })

/-- `QueryBuilder.add_variables`: a falsy argument (`None` or empty dict) is a
no-op; without `replace` any already-present key raises before anything is
saved; otherwise `self.variables.update(variables)`. -/
def QueryBuilder.add_variables (qb : QueryBuilder)
    (variables_ : Option (List (Str × PyVal))) (replace : Bool) :
    Except String QueryBuilder :=
  match variables_ with
  | none => .ok qb
  | some vs =>
    if vs.isEmpty then .ok qb
    else if !replace && vs.any fun kv => dmem kv.1 qb.d.variables_ then
      .error "Key already exists in variables so you cannot add it."
    else
      .ok (.mk { qb.d with variables_ := vs.foldl (fun d kv => dinsert kv.1 kv.2 d) qb.d.variables_ })

/-- `QueryBuilder.set_offset`: `None` is a no-op; a second real offset without
`replace` raises; otherwise store `"OFFSET $offset"` and
`add_variable("offset", offset, replace=replace)`. -/
def QueryBuilder.set_offset (qb : QueryBuilder) (offset : Option PyVal)
    (replace : Bool) : Except String QueryBuilder :=
  match offset with
  | none => .ok qb
  | some o =>
    if qb.d.offset.isSome && !replace then
      .error "An offset already exists. If you would like to replace it, pass in replace."
    else
      QueryBuilder.add_variable (.mk { qb.d with offset := some ("OFFSET $offset".data) })
        "offset".data o replace

/-- `QueryBuilder.set_limit`: same shape as `set_offset`. -/
def QueryBuilder.set_limit (qb : QueryBuilder) (limit : Option PyVal)
    (replace : Bool) : Except String QueryBuilder :=
  match limit with
  | none => .ok qb
  | some l =>
    if qb.d.limit.isSome && !replace then
      .error "A limit already exists. If you would like to replace it, pass in replace."
    else
      QueryBuilder.add_variable (.mk { qb.d with limit := some ("LIMIT $limit".data) })
        "limit".data l replace

/-- `QueryBuilder.set_where`: a truthy existing `where` without `replace_where`
raises; otherwise merge the variables then overwrite `where`. -/
def QueryBuilder.set_where (qb : QueryBuilder) (w : Str)
    (variables_ : Option (List (Str × PyVal))) (replace_where : Bool)
    (replace_variables : Bool) : Except String QueryBuilder :=
  if pyTruthyStr qb.d.where_ && !replace_where then
    .error "Where by already exists."
  else
    (qb.add_variables variables_ replace_variables).map fun qb2 =>
      .mk { qb2.d with where_ := some w }

/-- `QueryBuilder.set_order_by`: same shape as `set_where`. -/
def QueryBuilder.set_order_by (qb : QueryBuilder) (order_by : Str)
    (variables_ : Option (List (Str × PyVal))) (replace_order_by : Bool)
    (replace_variables : Bool) : Except String QueryBuilder :=
  if pyTruthyStr qb.d.order_by && !replace_order_by then
    .error "Order by already exists."
  else
    (qb.add_variables variables_ replace_variables).map fun qb2 =>
      .mk { qb2.d with order_by := some order_by }

/-! ## Composing the query text (`build` and friends) -/

/-- `re.sub(r"[^a-zA-Z0-9]+", "_", child_name)`: every maximal run of
non-alphanumeric characters becomes a single underscore.  `inRun` records
whether the previous character was part of such a run (so the run only emits
one underscore). -/
def sanitizeGo (inRun : Bool) : Str → Str
  | [] => []
  | c :: rest =>
    if c.isAlphanum then c :: sanitizeGo false rest
    else if inRun then sanitizeGo true rest
    else '_' :: sanitizeGo true rest

def sanitizeName (s : Str) : Str := sanitizeGo false s

/-- The `while var_name in variables_to_use` loop of
`QueryBuilder.build_child_var_name`.  `count` is never incremented in the
source, so each iteration prepends `"_" + child_name + "_"`.  Candidate names
grow strictly, so each dict key can be hit at most once and the loop exits
after at most `|variables_to_use| + 1` tests; the counter below is started
there and is only a termination bound. -/
def buildVarGo (cn : Str) : Nat → Str → List (Str × PyVal) → Str
  | 0, vn, _ => vn
  | n + 1, vn, vars => if dmem vn vars then buildVarGo cn n ('_' :: (cn ++ '_' :: vn)) vars else vn

/-- `QueryBuilder.build_child_var_name`. -/
def build_child_var_name (child_name var_name : Str) (variables_to_use : List (Str × PyVal)) : Str :=
  buildVarGo (sanitizeName child_name) (variables_to_use.length + 1) var_name variables_to_use

def isWordChar (c : Char) : Bool := c.isAlphanum || c = '_'

/-- Whether the regex `\$vn(?!\w)` matches at the position where the current
character is `c` and the remaining text is `rest`: a dollar sign, then `vn`,
then no word character (negative lookahead). -/
def refMatch (vn : Str) (c : Char) (rest : Str) : Bool :=
  c = '$' && List.isPrefixOf vn rest
    && !(match rest.drop vn.length with
         | [] => false
         | d :: _ => isWordChar d)

/-- `re.compile(r"\$%s(?!\w)" % var_name).sub("$" + new_name, s)`: replace
every occurrence of `$var_name` that is not followed by a word character,
left to right, continuing after each match.  Budget-style recursion as in
`pyReplaceGo`. -/
def dollarSubGo (vn nn : Str) : Nat → Str → Str
  | _, [] => []
  | 0, s => s
  | f + 1, c :: rest =>
    if refMatch vn c rest then '$' :: (nn ++ dollarSubGo vn nn f (rest.drop vn.length))
    else c :: dollarSubGo vn nn f rest

def dollarSub (vn nn : Str) (s : Str) : Str :=
  dollarSubGo vn nn s.length s

/-- The number of occurrences of the token `$vn` (with the same
no-word-character-follows condition as `dollarSub`) in a string. -/
def countRefsGo (vn : Str) : Nat → Str → Nat
  | _, [] => 0
  | 0, _ => 0
  | f + 1, c :: rest =>
    if refMatch vn c rest then 1 + countRefsGo vn f (rest.drop vn.length)
    else countRefsGo vn f rest

def countRefs (vn : Str) (s : Str) : Nat :=
  countRefsGo vn s.length s

/-- The variable-merging loop of `QueryBuilder.build_subquery` (query_builder.py
lines 232-247), folded over the child's built variable map `v.items()`:
a name already bound in the accumulated `variables` to the *identical* object
is reused as is; a name bound to a different object is renamed with
`build_child_var_name` and every `$name` reference in the child's already
built text is rewritten; a fresh name is simply added. -/
def mergeChildVars (name : Str) : List (Str × PyVal) → Str → List (Str × PyVal) →
    Str × List (Str × PyVal)
  | [], s, vars => (s, vars)
  | (vn, vv) :: rest, s, vars =>
    match dlookup vn vars with
    | some existing =>
      if pyIs vv existing then mergeChildVars name rest s vars
      else
        let nn := build_child_var_name name vn vars
        mergeChildVars name rest (dollarSub vn nn s) (dinsert nn vv vars)
    | none => mergeChildVars name rest s (dinsert vn vv vars)

/-- `f"'{sel.name}', {sel.path}"` for the `SelectionField`s, in order. -/
def fieldStrs (sels : List Selection) : List Str :=
  sels.filterMap fun sel =>
    match sel with
    | .field n p _ => some (sq :: (n ++ sq :: (", ".data ++ p)))
    | .sub _ _ => none

/-- Lexicographic (code-point) order on strings, as Python compares `str`. -/
def strLt : Str → Str → Bool
  | [], [] => false
  | [], _ :: _ => true
  | _ :: _, [] => false
  | a :: as', b :: bs' => if a = b then strLt as' bs' else decide (a < b)

/-- Stable insertion sort implementing Python's `list.sort()` on strings. -/
def insertStr (x : Str) : List Str → List Str
  | [] => [x]
  | y :: ys => if strLt x y then x :: y :: ys else y :: insertStr x ys

def sortStrs : List Str → List Str
  | [] => []
  | x :: xs => insertStr x (sortStrs xs)

/-- `QueryBuilder.build_filter_parts_s`: truthy `where` / `order_by` /
`offset` / `limit` clauses joined by newlines. -/
def build_filter_parts_s (qb : QueryBuilder) : Str :=
  joinSep "\n".data <|
    (if pyTruthyStr qb.d.where_ then ["WHERE ".data ++ qb.d.where_.getD []] else []) ++
    (if pyTruthyStr qb.d.order_by then ["ORDER BY ".data ++ qb.d.order_by.getD []] else []) ++
    (if pyTruthyStr qb.d.offset then [qb.d.offset.getD []] else []) ++
    (if pyTruthyStr qb.d.limit then [qb.d.limit.getD []] else [])

/-- `QueryBuilder.replace_current_and_parent`. -/
def replace_current_and_parent (s : Str) (table_alias : Option Str)
    (parent_table_alias : Option Str) : Str :=
  let s1 := match table_alias with
    | some ta => pyReplace '$' "current".data ta s
    | none => s
  match parent_table_alias with
  | some pa => pyReplace '$' "parent".data pa s1
  | none => s1

/-- `QueryBuilder.build_subquery` (query_builder.py lines 218-250), with the
recursive `qb.build(...)` call abstracted into `buildChild` (instantiated with
`buildQB fuel` below): build the child, merge its variables into the shared
`variables` dict (renaming and rewriting on a non-identical collision), and
wrap the text as `f"'{name}', ({s})"`. -/
def build_subquery
    (buildChild : QueryBuilder → Option Str → List Str → Bool →
      Except String (Str × List (Str × PyVal)))
    (name : Str) (cqb : QueryBuilder) (path : List Str) (parent_table_alias : Str)
    (vars : List (Str × PyVal)) (ofa : Bool) :
    Except String (Str × List (Str × PyVal)) :=
  match buildChild cqb (some parent_table_alias) path ofa with
  | .error e => .error e
  | .ok (s, v) =>
    let (s', vars') := mergeChildVars name v s vars
    .ok (sq :: (name ++ sq :: (", (".data ++ s' ++ [')'])), vars')

/-- The `build_subquery` calls made by `build_fields_s`, in selection order
(only `SelectionSub` selections contribute; `variables` is threaded through
because `build_subquery` mutates the shared dict). -/
def buildSubsGo
    (buildChild : QueryBuilder → Option Str → List Str → Bool →
      Except String (Str × List (Str × PyVal))) :
    List Selection → List Str → Str → Bool →
    List (Str × PyVal) → List Str → Except String (List Str × List (Str × PyVal))
  | [], _, _, _, vars, acc => .ok (acc, vars)
  | .field _ _ _ :: rest, path, ta, ofa, vars, acc =>
    buildSubsGo buildChild rest path ta ofa vars acc
  | .sub name cqb :: rest, path, ta, ofa, vars, acc =>
    match build_subquery buildChild name cqb path ta vars ofa with
    | .error e => .error e
    | .ok (s', vars') => buildSubsGo buildChild rest path ta ofa vars' (acc ++ [s'])

/-- The `new_path` / `table_alias` computation at the top of
`QueryBuilder.build` (lines 312-322): explicit alias if set, else the
quote-stripped `"__".join(new_path)`, with the root-level underscore tweak
when the alias would collide with the table name. -/
def computeAlias (qb : QueryBuilder) (path : List Str) : Str :=
  let new_path : List Str :=
    if path.isEmpty then [qb.d.table_name] else path ++ [qb.d.table_name]
  let ta0 : Str :=
    match qb.d.table_alias with
    | some a => a
    | none => pyReplace '"' [] [] (joinSep "__".data new_path)
  if path.isEmpty then
    if lowerStr ta0 = pyReplace '"' [] [] (lowerStr qb.d.table_name) then '_' :: ta0 else ta0
  else ta0

/-- Lines 329-349 of `build`: the `from_` fixing, the CTE strings and the
stripped single-row `SELECT json_build_object(...)` text. -/
def assembleCore (qb : QueryBuilder) (table_alias fields_s : Str) : Str :=
  let filter_parts_s := build_filter_parts_s qb
  let from1 : Str := match qb.d.from_ with | none => "*FROM*".data | some f => f
  let from2 := pyReplace '*' "FROM*".data
    ("FROM ".data ++ qb.d.table_name ++ ' ' :: table_alias) from1
  let from3 :=
    if from2.isEmpty || !List.isPrefixOf "from ".data (lowerStr from2) then
      "FROM ".data ++ qb.d.table_name ++ ' ' :: table_alias ++ ' ' :: from2
    else from2
  let cte_str := joinSep ",\n".data (qb.d.ctes.map CTE.cte_str)
  let cte_join_str := joinSep "\n".data (qb.d.ctes.map CTE.join_str)
  pyStrip <|
    '\n' :: (cte_str ++ "\nSELECT json_build_object(\n    ".data ++ fields_s ++
      "\n) AS ".data ++ table_alias ++ "_json\n".data ++ from3 ++
      '\n' :: (cte_join_str ++ '\n' :: (filter_parts_s ++ ['\n'])))

/-- Lines 350-356 of `build`: the `cardinality == MANY` aggregating wrapper
`SELECT COALESCE(json_agg(..), '[]'::json) AS .._json_agg FROM (..) as ..`. -/
def aggWrap (table_alias s0 : Str) : Str :=
  pyStrip <|
    "\nSELECT COALESCE(json_agg(".data ++ table_alias ++ "_json), ".data ++
      sq :: ("[]".data ++ sq :: ("::json) AS ".data ++ table_alias ++
        "_json_agg\nFROM (\n    ".data ++ s0 ++ "\n) as ".data ++ table_alias ++
        "_json_sub\n            ".data))

/-- Lines 329-363 of `build` after the field strings are known: assemble the
core text, wrap it when the cardinality is `MANY`, substitute it into the
full-query-string template if one is set, and replace `$current`/`$parent`. -/
def finishBuild (qb : QueryBuilder) (table_alias fields_s : Str)
    (parent_table_alias : Option Str) : Str :=
  let s0 := assembleCore qb table_alias fields_s
  let s1 := if qb.d.cardinality = .many then aggWrap table_alias s0 else s0
  let s2 :=
    match qb.d.full_query_str, qb.d.pattern_to_replace with
    | some fq, some (pc, ps) => pyReplace pc ps s1 fq
    | some fq, none => fq   -- unreachable: set_full_query_str always sets both
    | none, _ => s1
  replace_current_and_parent s2 (some table_alias) parent_table_alias

/-- `QueryBuilder.build` (query_builder.py lines 306-363).  `fuel` bounds the
recursion depth through child builders (the source recurses on a finite object
graph).  The source also mutates `self.from_` in place; builders are
single-use, so the model keeps the computation pure.  `path = []` models
`path=None` (an empty tuple and `None` are equally falsy). -/
def buildQB : Nat → QueryBuilder → Option Str → List Str → Bool →
    Except String (Str × List (Str × PyVal))
  | 0, _, _, _, _ => .error "recursion limit"
  | fuel + 1, qb, parent_table_alias, path, ofa =>
    let new_path : List Str :=
      if path.isEmpty then [qb.d.table_name] else path ++ [qb.d.table_name]
    let table_alias := computeAlias qb path
    -- build_fields_s: variables = self.variables.copy(); subqueries are built
    -- first (mutating `variables`), but their strings are placed after the
    -- plain selections.
    match buildSubsGo (buildQB fuel) qb.d.selections new_path table_alias ofa
        qb.d.variables_ [] with
    | .error e => .error e
    | .ok (subquery_strs, variables') =>
      let all_fields_strs := fieldStrs qb.d.selections ++ subquery_strs
      let all_fields_strs := if ofa then sortStrs all_fields_strs else all_fields_strs
      if all_fields_strs.isEmpty then .error "Query Builder has no fields."
      else .ok (finishBuild qb table_alias (joinSep ", ".data all_fields_strs)
        parent_table_alias, variables')

/-! ## GraphQL document translator (`fastgql/gql_ast/translator.py`)

The graphql-core selection AST is modelled by `GqlSel`.  One point needs
care: `children_from_node` keys inline fragments by `sel.type_condition.name`,
which is a `NameNode` *object*; graphql-core AST nodes compare by identity, so
two inline fragments merge only if they are literally the same parsed node
(e.g. reached twice through two spreads of the same fragment).  The model
carries that object identity as `nid`.  Schema bookkeeping (`get_root_type`,
field classification into `FieldNodeField`/`FieldNodeMethod`/`FieldNodeModel`
and the `annotation`s) does not affect the shape, keys or order of the
translated selection tree and is elided; `to_snake` is kept as an abstract
name-normalisation function. -/

/-- graphql-core value nodes, already in parsed form (`parse_val` keeps
variable references unresolved and maps the rest structurally). -/
inductive GqlVal where
  | varV (name : String)
  | intV (n : Int)
  | strV (s : String)
  | boolV (b : Bool)
  | listV (vs : List GqlVal)
  | objV (fs : List (String × GqlVal))
  | nullV

/-- `Translator.parse_val`: converts graphql-core value nodes to python
values structurally (ints parsed, lists and objects mapped pointwise,
variable references kept).  `GqlVal` already carries the parsed
representation, so the conversion is the identity on it. -/
def parseVal (v : GqlVal) : GqlVal := v

/-- graphql-core selection nodes: fields, inline fragments (with the identity
`nid` of their `type_condition.name` node) and fragment spreads. -/
inductive GqlSel where
  | field (alias? : Option String) (name : String)
      (args : List (String × GqlVal)) (selSet : Option (List GqlSel))
  | inlineFrag (nid : Nat) (typeCond : String) (selSet : Option (List GqlSel))
  | spread (name : String)

/-- The key under which `children_from_node` stores a selection in
`has_seen`: the response key string for fields, the `type_condition.name`
object (identity) for inline fragments. -/
inductive SelKey where
  | fieldKey (k : String)
  | fragKey (nid : Nat)
deriving DecidableEq

def selKey : GqlSel → SelKey
  | .field al n _ _ => .fieldKey (match al with | some a => a | none => n)
  | .inlineFrag nid _ _ => .fragKey nid
  | .spread n => .fieldKey n   -- unreachable: spreads are expanded before keying

def isSpread : GqlSel → Bool
  | .spread _ => true
  | _ => false

def isFieldSel : GqlSel → Bool
  | .field _ _ _ _ => true
  | _ => false

def ssList : Option (List GqlSel) → List GqlSel
  | none => []
  | some l => l

def argsOf : GqlSel → List (String × GqlVal)
  | .field _ _ args _ => args
  | _ => []

def selSetOf : GqlSel → Option (List GqlSel)
  | .field _ _ _ ss => ss
  | .inlineFrag _ _ ss => ss
  | .spread _ => none

/-- `Translator.combine_sels`: copy `a`; for fields concatenate the argument
tuples; always materialise a selection set holding the concatenation of both
nodes' selections (an empty `SelectionNode` is created when `a` had none, so
the combined node always has one).  Mixed-kind combination is unreachable
(field keys are strings, fragment keys are distinct node identities). -/
def combineSels (a b : GqlSel) : GqlSel :=
  match a with
  | .field al n args ss => .field al n (args ++ argsOf b) (some (ssList ss ++ ssList (selSetOf b)))
  | .inlineFrag nid tc ss => .inlineFrag nid tc (some (ssList ss ++ ssList (selSetOf b)))
  | .spread n => .spread n

inductive TransErr where
  | missingFragment (name : String)   -- KeyError on self.fragment_definitions
  | fuel
deriving DecidableEq

structure TransCfg where
  frags : List (String × List GqlSel)
  toSnake : String → String

/-- One non-spread iteration of the `has_seen` loop in
`children_from_node`: `if existing := has_seen.get(key): sel =
combine_sels(existing, sel); has_seen[key] = sel`. -/
def mergeStep (seen : List (SelKey × GqlSel)) (sel : GqlSel) :
    List (SelKey × GqlSel) :=
  dinsert (selKey sel)
    (match dlookup (selKey sel) seen with
     | some existing => combineSels existing sel
     | none => sel) seen

/-- Iterated `combine_sels` over a same-key group (specification-side helper
used to characterise what the merge loop accumulates for one key). -/
def mergeGroup : Option GqlSel → List GqlSel → Option GqlSel
  | acc, [] => acc
  | some e, s :: r => mergeGroup (some (combineSels e s)) r
  | none, s :: r => mergeGroup (some s) r

/-- The response-key string of a merge key, when it is a field key. -/
def selKeyStr : SelKey → Option String
  | .fieldKey s => some s
  | .fragKey _ => none

/-- The flatten-and-combine worklist loop of `Translator.children_from_node`
(lines 85-103): pop from the front; a fragment spread appends the referenced
fragment's selections at the *end* of the queue (`selection_q.extend`); other
selections are merged into the insertion-ordered `has_seen` dict under their
key.  `fuel` only bounds the loop (each iteration consumes it once); the
source loop terminates for non-cyclic fragments. -/
def flattenMerge (cfg : TransCfg) : Nat → List GqlSel → List (SelKey × GqlSel) →
    Except TransErr (List (SelKey × GqlSel))
  | _, [], seen => .ok seen
  | 0, _ :: _, _ => .error .fuel
  | fuel + 1, .spread n :: rest, seen =>
    match dlookup n cfg.frags with
    | none => .error (.missingFragment n)
    | some sels => flattenMerge cfg fuel (rest ++ sels) seen
  | fuel + 1, sel :: rest, seen => flattenMerge cfg fuel rest (mergeStep seen sel)

/-- A translated argument (`gql_ast.models.Argument`). -/
structure TArg where
  display_name : String
  name : String
  value : GqlVal

/-- Translated selection nodes (`gql_ast.models.FieldNode` /
`InlineFragmentNode`); the `FieldNodeField`/`Method`/`Model` classification
and `annotation` metadata are elided. -/
inductive TNode where
  | field (name : String) (alias? : Option String) (displayName : String)
      (args : List TArg) (children : Option (List TNode))
  | inlineFrag (typeCond : String) (children : Option (List TNode))

def childrenOfT : TNode → List TNode
  | .field _ _ _ _ cs => match cs with | none => [] | some l => l
  | .inlineFrag _ cs => match cs with | none => [] | some l => l

/-- The response keys of the `FieldNode`s in a sibling list
(`alias or name`). -/
def fieldRespKeys (ns : List TNode) : List String :=
  ns.filterMap fun n =>
    match n with
    | .field _ al dn _ _ => some (match al with | some a => a | none => dn)
    | .inlineFrag _ _ => none

/-- The per-merged-selection body of `children_from_node`'s second loop and of
`from_node` (lines 105-255), with the recursive `from_node` call abstracted as
`fromN`.  A fragment spread returns the list of its fragment's translated
selections (`from_node`'s list case, spliced by the caller). -/
def childrenLoop (fromN : GqlSel → List String → Except TransErr (List TNode)) :
    List (SelKey × GqlSel) → List String → Except TransErr (List TNode)
  | [], _ => .ok []
  | (_, sel) :: rest, path =>
    match fromN sel path with
    | .error e => .error e
    | .ok ns =>
      match childrenLoop fromN rest path with
      | .error e => .error e
      | .ok ms => .ok (ns ++ ms)

def fromNodeList (fromN : GqlSel → List String → Except TransErr (List TNode)) :
    List GqlSel → List String → Except TransErr (List TNode)
  | [], _ => .ok []
  | sel :: rest, path =>
    match fromN sel path with
    | .error e => .error e
    | .ok ns =>
      match fromNodeList fromN rest path with
      | .error e => .error e
      | .ok ms => .ok (ns ++ ms)

/-- `Translator.children_from_node`: `None` when the node has no selection
set; otherwise flatten-and-merge the sibling list, then translate each merged
selection in `has_seen` order. -/
def childrenFromNode
    (fromN : GqlSel → List String → Except TransErr (List TNode))
    (cfg : TransCfg) (fuel : Nat) (selSet : Option (List GqlSel))
    (path : List String) : Except TransErr (Option (List TNode)) :=
  match selSet with
  | none => .ok none
  | some sels =>
    match flattenMerge cfg fuel sels [] with
    | .error e => .error e
    | .ok merged =>
      match childrenLoop fromN merged path with
      | .error e => .error e
      | .ok cs => .ok (some cs)

/-- `Translator.from_node` (lines 147-257): a fragment spread maps to the
translated selections of its fragment (returned as a list to be spliced by
the caller); an inline fragment or field recurses through
`children_from_node` with the path extended by its type condition or name.
`fuel` bounds the nesting/expansion depth. -/
def fromNode (cfg : TransCfg) : Nat → GqlSel → List String →
    Except TransErr (List TNode)
  | 0, _, _ => .error .fuel
  | fuel + 1, .spread n, path =>
    match dlookup n cfg.frags with
    | none => .error (.missingFragment n)
    | some sels => fromNodeList (fromNode cfg fuel) sels path
  | fuel + 1, .inlineFrag _ tc ss, path =>
    match childrenFromNode (fromNode cfg fuel) cfg fuel ss (path ++ [tc]) with
    | .error e => .error e
    | .ok cs => .ok [.inlineFrag tc cs]
  | fuel + 1, .field al n args ss, path =>
    let targs := args.map fun a => TArg.mk a.1 (cfg.toSnake a.1) (parseVal a.2)
    match childrenFromNode (fromNode cfg fuel) cfg fuel ss (path ++ [n]) with
    | .error e => .error e
    | .ok cs => .ok [.field (cfg.toSnake n) al n targs cs]

inductive OperationTypeT where
  | query
  | mutation
  | subscription
deriving DecidableEq

def opTypeStr : OperationTypeT → String
  | .query => "query"
  | .mutation => "mutation"
  | .subscription => "subscription"

/-- A graphql-core document definition. -/
inductive GqlDef where
  | frag (name : String) (sels : List GqlSel)
  | op (name? : Option String) (opType : OperationTypeT) (sels : List GqlSel)

structure TOperation where
  name? : Option String
  opType : OperationTypeT
  children : List TNode

/-- `Translator.from_operation_node`: translate each top-level selection with
`from_node` and splice list results.  Note: the operation's direct children
are *not* passed through the `has_seen` merge loop. -/
def fromOperationNode (cfg : TransCfg) (fuel : Nat) (name? : Option String)
    (opType : OperationTypeT) (sels : List GqlSel) :
    Except TransErr TOperation :=
  match fromNodeList (fromNode cfg fuel) sels [opTypeStr opType] with
  | .error e => .error e
  | .ok children => .ok ⟨name?, opType, children⟩

/-- `Translator.translate`: partition definitions into the fragment dict and
the per-kind operation lists, then translate queries followed by mutations
(subscription definitions are collected but never translated). -/
def translate (toSnake : String → String) (fuel : Nat) (defs : List GqlDef) :
    Except TransErr (List TOperation) :=
  let frags := defs.foldl (fun d df =>
    match df with
    | .frag n ss => dinsert n ss d
    | .op _ _ _ => d) []
  let cfg : TransCfg := ⟨frags, toSnake⟩
  let queries := defs.filterMap fun df =>
    match df with
    | .op n .query ss => some (n, OperationTypeT.query, ss)
    | _ => none
  let mutations := defs.filterMap fun df =>
    match df with
    | .op n .mutation ss => some (n, OperationTypeT.mutation, ss)
    | _ => none
  (queries ++ mutations).foldr (fun op acc =>
    match fromOperationNode cfg fuel op.1 op.2.1 op.2.2, acc with
    | .ok o, .ok os => .ok (o :: os)
    | .error e, _ => .error e
    | _, .error e => .error e) (.ok [])

/-! ## Resolver (`fastgql/execute/resolver.py`, lines 125-302)

The resolver walks the translated `TNode` tree against runtime model
objects.  Models are pydantic `GQL` instances: `GObj` carries the
`gql_type_name()`, the pydantic `model_fields` (as `fields`) and the
callable attributes (as `methods`, each modelled by its eventual outcome).
Dependency injection / kwargs building (`build_kwargs`,
`inject_dependencies`) only affects what a method computes, which the model
folds into the stored `MethodRes`; the `node` argument of `GQLError` and
`node_from_path` bookkeeping are elided.  `asyncio.gather` preserves the
order of its argument list; the embedding runs the gathered coroutines
sequentially in that order, which serialises the interleaving of the
`self.errors` appends made by concurrently running children. -/

/-- Plain scalar values (JSON-compatible leaves). -/
inductive ScalV where
  | intV (n : Int)
  | strV (s : String)
  | boolV (b : Bool)
deriving DecidableEq

mutual
/-- A python value held by a pydantic field or returned by a method. -/
inductive FVal where
  | scal (sc : ScalV)
  | fnull
  | obj (o : GObj)
  | objList (os : List (Option GObj))

/-- A runtime `GQL` model instance. -/
inductive GObj where
  | mk (typeName : String) (fields : List (String × FVal))
      (methods : List (String × MethodRes))

/-- The outcome of invoking a function-backed field (after dependency
injection and kwargs validation). -/
inductive MethodRes where
  | ok (v : FVal)
  | raiseStd (msg : String)
  | raiseGql (message : String) (path : List String)
end

def GObj.typeName : GObj → String
  | .mk tn _ _ => tn

def GObj.fields : GObj → List (String × FVal)
  | .mk _ fs _ => fs

def GObj.methods : GObj → List (String × MethodRes)
  | .mk _ _ ms => ms

/-- Python truthiness of an `FVal` (`if child_model_s:`, `if not model:`). -/
def truthyFVal : FVal → Bool
  | .scal (.intV n) => decide (n ≠ 0)
  | .scal (.strV s) => decide (s ≠ "")
  | .scal (.boolV b) => b
  | .fnull => false
  | .obj _ => true
  | .objList os => !os.isEmpty

/-- A value stored in a resolver result dict. -/
inductive RVal where
  | null
  | intV (n : Int)
  | strV (s : String)
  | boolV (b : Bool)
  | listV (vs : List RVal)
  | dict (d : List (String × RVal))
  | raw (v : FVal)   -- an unresolved python value returned as-is

def isNullR : RVal → Bool
  | .null => true
  | _ => false

def dumpScal : ScalV → RVal
  | .intV n => .intV n
  | .strV s => .strV s
  | .boolV b => .boolV b

/-- `model_dump(mode="json")` of one field value; `fuel` bounds the object
nesting depth (the source recursion terminates on the acyclic model). -/
def dumpFVal : Nat → FVal → RVal
  | _, .scal sc => dumpScal sc
  | _, .fnull => .null
  | 0, .obj _ => .null
  | 0, .objList _ => .null
  | f + 1, .obj o =>
    .dict (o.fields.map fun p => (p.1, dumpFVal f p.2))
  | f + 1, .objList os =>
    .listV (os.map fun oo =>
      match oo with
      | none => .null
      | some o => dumpFVal f (.obj o))

/-- A raw (unresolved) method result placed into the result dict
(`return child_model_s`); python `None` is the JSON null. -/
def rawR : FVal → RVal
  | .fnull => .null
  | v => .raw v

/-- A propagating python exception: a plain exception, or a raised
`GQLError` instance (caught and appended as-is by the gather loop). -/
inductive PExc where
  | std (msg : String)
  | gqlErr (message : String) (path : List String)
deriving DecidableEq

/-- `gql_models.GQLError` as recorded in `self.errors` (the `node` field is
elided). -/
structure GErr where
  message : String
  path : List String
  original_error : Option PExc
deriving DecidableEq

def nonNullMsg (p : List String) : String :=
  "Cannot return null for non-nullable field " ++ String.intercalate "." p

abbrev RRes := List GErr × Except PExc RVal

/-- A pending awaitable in `proms_map`: a function-backed field invocation,
or a nested `resolve_node_s` on a model-backed field value. -/
inductive PromSrc where
  | func (child : TNode) (m : MethodRes)
  | nested (child : TNode) (v : FVal)

/-- The per-node classification state built by the `children_q` loop. -/
structure CFrame where
  finalD : List (String × RVal)
  ntr2dn : List (String × String)
  f2i : List (String × String)
  proms : List (String × PromSrc)

/-- `child.alias or child.display_name` (python `or`: empty string falsy). -/
def pyOrStr (a : Option String) (b : String) : String :=
  match a with
  | some s => if s = "" then b else s
  | none => b

/-- Truthiness of `node.children` / `child.children`. -/
def truthyChildrenT : Option (List TNode) → Bool
  | none => false
  | some [] => false
  | some (_ :: _) => true

def ssT : Option (List TNode) → List TNode
  | none => []
  | some l => l

def childrenOptOfT : TNode → Option (List TNode)
  | .field _ _ _ _ cs => cs
  | .inlineFrag _ cs => cs

def nameOfT : TNode → String
  | .field nm _ _ _ _ => nm
  | .inlineFrag tc _ => tc

/-- The `while len(children_q) > 0` classification loop of `resolve_node`
(lines 159-195): pop from the front; an inline fragment whose type condition
matches the model's type name splices its children at the *front*
(`children_q[:0] = child.children`); fields are recorded in
`name_to_return_to_display_name` and routed to `final_d` (`__typename`),
`proms_map` (function-backed via `getattr`, which raises `AttributeError`
eagerly if absent, or model-backed with children) or `fields_to_include`
(property).  `fuel` bounds the loop. -/
def classifyGo (o : GObj) : Nat → List TNode → CFrame → Except PExc CFrame
  | 0, _ :: _, _ => .error (.std "resolver fuel")
  | _, [], st => .ok st
  | f + 1, child :: rest, st =>
    match child with
    | .inlineFrag tc cso =>
      if tc = o.typeName then
        classifyGo o f (ssT cso ++ rest) st
      else
        classifyGo o f rest st
    | .field nm al dn _ cso =>
      let ntr := pyOrStr al dn
      let st₁ := { st with ntr2dn := dinsert ntr dn st.ntr2dn }
      if nm = "__typename" then
        classifyGo o f rest
          { st₁ with finalD := dinsert ntr (.strV o.typeName) st₁.finalD }
      else if (dmem nm o.fields) = false then
        match dlookup nm o.methods with
        | some m =>
          classifyGo o f rest
            { st₁ with proms := dinsert ntr (.func child m) st₁.proms }
        | none => .error (.std ("AttributeError: " ++ nm))
      else if truthyChildrenT cso = false then
        classifyGo o f rest { st₁ with f2i := dinsert nm ntr st₁.f2i }
      else
        classifyGo o f rest
          { st₁ with
            proms := dinsert ntr
              (.nested child ((dlookup nm o.fields).getD .fnull)) st₁.proms }

/-- `resolve_node` on each element of a list of models (`resolve_node_s`
list branch); plain `asyncio.gather`, so the first exception propagates. -/
def resolveListGo (rn : FVal → List String → RRes) (path : List String) :
    List (Option GObj) → List GErr × Except PExc (List RVal)
  | [] => ([], .ok [])
  | oo :: rest =>
    let v : FVal := match oo with | none => .fnull | some o => .obj o
    match rn v path with
    | (errs, .error e) => (errs, .error e)
    | (errs, .ok r) =>
      match resolveListGo rn path rest with
      | (errs₂, .error e) => (errs ++ errs₂, .error e)
      | (errs₂, .ok rs) => (errs ++ errs₂, .ok (r :: rs))

/-- `resolve_node_s`: a list fans out elementwise, anything else goes to
`resolve_node` directly. -/
def resolveNodeS (rn : TNode → FVal → List String → RRes)
    (node : TNode) (v : FVal) (path : List String) : RRes :=
  match v with
  | .objList os =>
    match resolveListGo (fun w p => rn node w p) path os with
    | (errs, .error e) => (errs, .error e)
    | (errs, .ok rs) => (errs, .ok (.listV rs))
  | w => rn node w path

/-- `inject_dependencies_and_execute` / the nested `resolve_node_s` call:
evaluate one pending awaitable at its `new_path`. -/
def runProm (rn : TNode → FVal → List String → RRes) (newPath : List String) :
    PromSrc → RRes
  | .func child m =>
    match m with
    | .raiseStd msg => ([], .error (.std msg))
    | .raiseGql message epath => ([], .error (.gqlErr message epath))
    | .ok v =>
      if truthyFVal v && truthyChildrenT (childrenOptOfT child) then
        resolveNodeS rn child v newPath
      else
        ([], .ok (rawR v))
  | .nested child v => resolveNodeS rn child v newPath

/-- `await asyncio.gather(*proms_map.values(), return_exceptions=True)`:
run every pending awaitable (in `proms_map` order), collecting the errors
each appends and capturing, not propagating, its exception. -/
def runProms (rP : List String → PromSrc → RRes) (path : List String) :
    List (String × PromSrc) → List GErr × List (String × Except PExc RVal)
  | [] => ([], [])
  | (name, src) :: rest =>
    let (errs, r) := rP (path ++ [name]) src
    let (errs₂, rs) := runProms rP path rest
    (errs ++ errs₂, (name, r) :: rs)

/-- The `for name, val in zip(proms_map.keys(), vals)` loop (lines 197-222):
a captured `GQLError` is appended as-is, any other exception is recorded as
an `Internal Server Error` at `(*path, name)`; the value becomes `None`;
`final_d[name] = val`. -/
def gatherLoop (path : List String) :
    List (String × Except PExc RVal) → List (String × RVal) →
    List GErr × List (String × RVal)
  | [], finalD => ([], finalD)
  | (name, r) :: rest, finalD =>
    let (errNew, val) :=
      match r with
      | .ok v => (([] : List GErr), v)
      | .error (.gqlErr message epath) => ([GErr.mk message epath none], RVal.null)
      | .error (.std msg) =>
        ([GErr.mk "Internal Server Error" (path ++ [name]) (some (.std msg))],
          RVal.null)
    let (errs₂, finalD₂) := gatherLoop path rest (dinsert name val finalD)
    (errNew ++ errs₂, finalD₂)

/-- The `fields_to_include` loop (lines 223-227): write the dumped property
under `name_to_use`, and also under `name` when aliased. -/
def includeGo (dump : String → RVal) :
    List (String × String) → List (String × RVal) → List (String × RVal)
  | [], finalD => finalD
  | (name, ntu) :: rest, finalD =>
    let finalD₁ := dinsert ntu (dump name) finalD
    let finalD₂ := if ntu = name then finalD₁ else dinsert name (dump name) finalD₁
    includeGo dump rest finalD₂

/-- The `now null check and order property` loop (lines 229-251): walk
`name_to_return_to_display_name` in declaration order; a `None` value for a
field that `is_not_nullable_map[type][display_name]` declares non-null -
checked only `if path:` - records one error at the full path and collapses
the node to `None`; otherwise the value (null included) is kept, giving
`sorted_d` its declared key order. -/
def sortPhase (nn : String → String → Bool) (tname : String)
    (path : List String) :
    List (String × String) → List (String × RVal) →
    List GErr × Option (List (String × RVal))
  | [], _ => ([], some [])
  | (ntr, dn) :: rest, finalD =>
    let val := (dlookup ntr finalD).getD .null
    if isNullR val && !path.isEmpty && nn tname dn then
      ([GErr.mk (nonNullMsg (path ++ [ntr])) (path ++ [ntr]) none], none)
    else
      match sortPhase nn tname path rest finalD with
      | (errs, none) => (errs, none)
      | (errs, some d) => (errs, some ((ntr, val) :: d))

/-- Lines 196-251 of `resolve_node` after classification: gather the
awaitables, splice in the dumped properties, then null-check and order. -/
def resolveFrame (rn : TNode → FVal → List String → RRes)
    (nn : String → String → Bool) (dumpFuel : Nat) (o : GObj)
    (path : List String) (st : CFrame) : RRes :=
  let (derrs, results) := runProms (fun p src => runProm rn p src) path st.proms
  let (gerrs, finalD₁) := gatherLoop path results st.finalD
  let finalD₂ := includeGo
    (fun nm => dumpFVal dumpFuel ((dlookup nm o.fields).getD .fnull)) st.f2i finalD₁
  let (serrs, res) := sortPhase nn o.typeName path st.ntr2dn finalD₂
  (derrs ++ gerrs ++ serrs,
    .ok (match res with | none => RVal.null | some d => RVal.dict d))

/-- `resolve_node` (lines 142-251): `None` resolves to `None`; a non-`GQL`
model raises; otherwise classify the children worklist, then run the frame.
The first argument list is `node.children` (the node object itself is
otherwise used only for error-node bookkeeping, which is elided).  `fuel`
bounds the recursion depth and worklist length. -/
def resolveNode (nn : String → String → Bool) :
    Nat → List TNode → FVal → List String → RRes
  | 0, _, _, _ => ([], .error (.std "resolver fuel"))
  | _ + 1, _, .fnull, _ => ([], .ok .null)
  | _ + 1, _, .scal _, _ =>
    ([], .error (.std "Model must be an instance of GQL."))
  | _ + 1, _, .objList _, _ =>
    ([], .error (.std "Model must be an instance of GQL."))
  | f + 1, cs, .obj o, path =>
    match classifyGo o f cs ⟨[], [], [], []⟩ with
    | .error e => ([], .error e)
    | .ok st =>
      resolveFrame (fun n v p => resolveNode nn f (childrenOfT n) v p)
        nn f o path st

/-- `final_d.update(d)` accumulation of `resolve_root_nodes`. -/
def dictUpdate (acc d : List (String × RVal)) : List (String × RVal) :=
  d.foldl (fun a p => dinsert p.1 p.2 a) acc

/-- `resolve_root_nodes` (lines 253-274): resolve every operation at the
empty path against the per-operation-type root model, then merge the
resulting dicts in order (`final_d.update`); a non-dict result would make
`update` raise `TypeError`. -/
def resolveRootNodes (nn : String → String → Bool) (fuel : Nat)
    (roots : List TOperation) (typeToModel : OperationTypeT → Option GObj) :
    List GErr × Except PExc (List (String × RVal)) :=
  match roots with
  | [] => ([], .ok [])
  | root :: rest =>
    match typeToModel root.opType with
    | none => ([], .error (.std (opTypeStr root.opType ++ " type required.")))
    | some o =>
      match resolveNode nn fuel root.children (.obj o) [] with
      | (errs, .error e) => (errs, .error e)
      | (errs, .ok (.dict d)) =>
        match resolveRootNodes nn fuel rest typeToModel with
        | (errs₂, .error e) => (errs ++ errs₂, .error e)
        | (errs₂, .ok acc) => (errs ++ errs₂, .ok (dictUpdate (dictUpdate [] d) acc))
      | (errs, .ok _) => (errs, .error (.std "TypeError"))

/-- The value the gather loop writes into `final_d` for one settled
awaitable (`val = None` when an exception was captured). -/
def gatherVal : Except PExc RVal → RVal
  | .ok v => v
  | .error _ => .null

/-- The error entry the gather loop appends for one settled awaitable. -/
def gatherErr (path : List String) (p : String × Except PExc RVal) :
    Option GErr :=
  match p.2 with
  | .ok _ => none
  | .error (.gqlErr message epath) => some (GErr.mk message epath none)
  | .error (.std msg) =>
    some (GErr.mk "Internal Server Error" (path ++ [p.1]) (some (.std msg)))

/-- The gather loop's `final_d` updates as a fold. -/
def gatherFold (results : List (String × Except PExc RVal))
    (finalD : List (String × RVal)) : List (String × RVal) :=
  results.foldl (fun d p => dinsert p.1 (gatherVal p.2) d) finalD

/-- The response keys of a sibling worklist in declaration order, with
matching inline fragments spliced at the front - the specification-side
declared order against which result-dict ordering is checked. -/
def rawRespKeys (tname : String) : Nat → List TNode → List String
  | 0, _ :: _ => []
  | _, [] => []
  | f + 1, child :: rest =>
    match child with
    | .inlineFrag tc cso =>
      if tc = tname then
        rawRespKeys tname f (ssT cso ++ rest)
      else
        rawRespKeys tname f rest
    | .field _ al dn _ _ => pyOrStr al dn :: rawRespKeys tname f rest

end FastGQL

-- ===================== THEOREMS =====================

namespace FastGQL

/-! ### Budget irrelevance and unfolding equations for the string scanners -/

theorem pyReplaceGo_fuel (p : Char) (ps rep : Str) :
    ∀ (f g : Nat) (s : Str), s.length ≤ f → s.length ≤ g →
      pyReplaceGo p ps rep f s = pyReplaceGo p ps rep g s := by
  intro f
  induction f with
  | zero =>
    intro g s hf hg
    obtain rfl : s = [] := List.length_eq_zero.mp (Nat.le_zero.mp hf)
    cases g <;> rfl
  | succ f ih =>
    intro g s hf hg
    cases s with
    | nil => cases g <;> rfl
    | cons c rest =>
      cases g with
      | zero => simp at hg
      | succ g =>
        simp only [pyReplaceGo]
        have h1 : rest.length ≤ f := by simp only [List.length_cons] at hf; omega
        have h2 : rest.length ≤ g := by simp only [List.length_cons] at hg; omega
        have h3 : (rest.drop ps.length).length ≤ f := by
          have := List.length_drop ps.length rest; omega
        have h4 : (rest.drop ps.length).length ≤ g := by
          have := List.length_drop ps.length rest; omega
        by_cases hc : (c = p && List.isPrefixOf ps rest) = true
        · rw [if_pos hc, if_pos hc, ih g _ h3 h4]
        · rw [if_neg hc, if_neg hc, ih g rest h1 h2]

theorem pyReplace_nil (p : Char) (ps rep : Str) : pyReplace p ps rep [] = [] := rfl

theorem pyReplace_cons (p : Char) (ps rep : Str) (c : Char) (rest : Str) :
    pyReplace p ps rep (c :: rest)
      = if c = p && List.isPrefixOf ps rest then
          rep ++ pyReplace p ps rep (rest.drop ps.length)
        else c :: pyReplace p ps rep rest := by
  unfold pyReplace
  simp only [List.length_cons, pyReplaceGo]
  by_cases hc : (c = p && List.isPrefixOf ps rest) = true
  · rw [if_pos hc, if_pos hc,
      pyReplaceGo_fuel p ps rep rest.length (rest.drop ps.length).length _
        (by have := List.length_drop ps.length rest; omega) le_rfl]
  · rw [if_neg hc, if_neg hc]

theorem dollarSubGo_fuel (vn nn : Str) :
    ∀ (f g : Nat) (s : Str), s.length ≤ f → s.length ≤ g →
      dollarSubGo vn nn f s = dollarSubGo vn nn g s := by
  intro f
  induction f with
  | zero =>
    intro g s hf hg
    obtain rfl : s = [] := List.length_eq_zero.mp (Nat.le_zero.mp hf)
    cases g <;> rfl
  | succ f ih =>
    intro g s hf hg
    cases s with
    | nil => cases g <;> rfl
    | cons c rest =>
      cases g with
      | zero => simp at hg
      | succ g =>
        simp only [dollarSubGo]
        have h1 : rest.length ≤ f := by simp only [List.length_cons] at hf; omega
        have h2 : rest.length ≤ g := by simp only [List.length_cons] at hg; omega
        have h3 : (rest.drop vn.length).length ≤ f := by
          have := List.length_drop vn.length rest; omega
        have h4 : (rest.drop vn.length).length ≤ g := by
          have := List.length_drop vn.length rest; omega
        by_cases hc : refMatch vn c rest = true
        · rw [if_pos hc, if_pos hc, ih g _ h3 h4]
        · rw [if_neg hc, if_neg hc, ih g rest h1 h2]

theorem dollarSub_nil (vn nn : Str) : dollarSub vn nn [] = [] := rfl

theorem dollarSub_cons (vn nn : Str) (c : Char) (rest : Str) :
    dollarSub vn nn (c :: rest)
      = if refMatch vn c rest then '$' :: (nn ++ dollarSub vn nn (rest.drop vn.length))
        else c :: dollarSub vn nn rest := by
  unfold dollarSub
  simp only [List.length_cons, dollarSubGo]
  by_cases hc : refMatch vn c rest = true
  · rw [if_pos hc, if_pos hc,
      dollarSubGo_fuel vn nn rest.length (rest.drop vn.length).length _
        (by have := List.length_drop vn.length rest; omega) le_rfl]
  · rw [if_neg hc, if_neg hc]

theorem countRefsGo_fuel (vn : Str) :
    ∀ (f g : Nat) (s : Str), s.length ≤ f → s.length ≤ g →
      countRefsGo vn f s = countRefsGo vn g s := by
  intro f
  induction f with
  | zero =>
    intro g s hf hg
    obtain rfl : s = [] := List.length_eq_zero.mp (Nat.le_zero.mp hf)
    cases g <;> rfl
  | succ f ih =>
    intro g s hf hg
    cases s with
    | nil => cases g <;> rfl
    | cons c rest =>
      cases g with
      | zero => simp at hg
      | succ g =>
        simp only [countRefsGo]
        have h1 : rest.length ≤ f := by simp only [List.length_cons] at hf; omega
        have h2 : rest.length ≤ g := by simp only [List.length_cons] at hg; omega
        have h3 : (rest.drop vn.length).length ≤ f := by
          have := List.length_drop vn.length rest; omega
        have h4 : (rest.drop vn.length).length ≤ g := by
          have := List.length_drop vn.length rest; omega
        by_cases hc : refMatch vn c rest = true
        · rw [if_pos hc, if_pos hc, ih g _ h3 h4]
        · rw [if_neg hc, if_neg hc, ih g rest h1 h2]

theorem countRefs_nil (vn : Str) : countRefs vn [] = 0 := rfl

theorem countRefs_cons (vn : Str) (c : Char) (rest : Str) :
    countRefs vn (c :: rest)
      = if refMatch vn c rest then 1 + countRefs vn (rest.drop vn.length)
        else countRefs vn rest := by
  unfold countRefs
  simp only [List.length_cons, countRefsGo]
  by_cases hc : refMatch vn c rest = true
  · rw [if_pos hc, if_pos hc,
      countRefsGo_fuel vn rest.length (rest.drop vn.length).length _
        (by have := List.length_drop vn.length rest; omega) le_rfl]
  · rw [if_neg hc, if_neg hc]

/-! ### Association-list (Python dict) lemmas -/

theorem dlookup_dinsert_self {κ α : Type} [DecidableEq κ] (k : κ) (v : α)
    (d : List (κ × α)) : dlookup k (dinsert k v d) = some v := by
  induction d with
  | nil => simp [dinsert, dlookup]
  | cons hd tl ih =>
    obtain ⟨k', v'⟩ := hd
    by_cases h : k' = k <;> simp [dinsert, dlookup, h, ih]

theorem dlookup_dinsert_ne {κ α : Type} [DecidableEq κ] {k k' : κ} (v : α)
    (d : List (κ × α)) (h : k' ≠ k) : dlookup k' (dinsert k v d) = dlookup k' d := by
  induction d with
  | nil =>
    simp only [dinsert, dlookup]
    exact if_neg fun hh => h hh.symm
  | cons hd tl ih =>
    obtain ⟨k'', v''⟩ := hd
    by_cases h2 : k'' = k
    · subst h2
      simp [dinsert, dlookup, Ne.symm h]
    · simp [dinsert, dlookup, h2, ih]

theorem dinsert_keys_of_fresh {κ α : Type} [DecidableEq κ] (k : κ) (v : α)
    (d : List (κ × α)) (h : dlookup k d = none) :
    (dinsert k v d).map Prod.fst = d.map Prod.fst ++ [k] := by
  induction d with
  | nil => simp [dinsert]
  | cons hd tl ih =>
    obtain ⟨k', v'⟩ := hd
    by_cases h2 : k' = k
    · simp [dlookup, h2] at h
    · simp [dlookup, h2] at h
      simp [dinsert, h2, ih h]

theorem dinsert_keys_of_present {κ α : Type} [DecidableEq κ] (k : κ) (v : α)
    (d : List (κ × α)) (h : (dlookup k d).isSome) :
    (dinsert k v d).map Prod.fst = d.map Prod.fst := by
  induction d with
  | nil => simp [dlookup] at h
  | cons hd tl ih =>
    obtain ⟨k', v'⟩ := hd
    by_cases h2 : k' = k
    · subst h2; simp [dinsert]
    · simp [dlookup, h2] at h
      simp [dinsert, h2, ih h]

/-! ### C7 — the compiled-document cache -/

/-- C7: evaluation of the executor's cache access path at the failing input.
With capacity 2, after `execute("q1")`, `execute("q2")`, `execute("q1")`
(a cache hit), `execute("q3")`, the claim ("a key read since another key's
last use outlives it at eviction time") predicts that `q1` survives and `q2`
is evicted.  The code evicts `q1`: the hit goes through `dict.get`, which
bypasses `CacheDict.__getitem__` and does not refresh recency.  The last
conjunct shows the contrast: a read through `CacheDict.__getitem__` itself
(the class's own read operation) would have kept `q1` alive. -/
theorem c7_read_through_executor_does_not_refresh_recency :
    ((executeCacheStep (execChain ⟨[], 2⟩ ["q1", "q2"]) "q1" (fun s => s)).2 = "q1"
      ∧ (execChain ⟨[], 2⟩ ["q1", "q2", "q1"]).entries
          = (execChain ⟨[], 2⟩ ["q1", "q2"]).entries)
    ∧ (execChain ⟨[], 2⟩ ["q1", "q2", "q1", "q3"]).entries.map Prod.fst
        = ["q2", "q3"]
    ∧ dlookup "q1" (execChain ⟨[], 2⟩ ["q1", "q2", "q1", "q3"]).entries = none
    ∧ (((execChain ⟨[], 2⟩ ["q1", "q2"]).getItem "q1").2.setItem "q3" "q3").entries.map
        Prod.fst = ["q1", "q3"] := by
  decide

/-! ### Builder method unfolding lemmas -/

theorem set_limit_fresh (qb : QueryBuilder) (l : PyVal) (hl : qb.d.limit = none)
    (hv : dlookup "limit".data qb.d.variables_ = none) :
    qb.set_limit (some l) false =
      .ok (.mk { qb.d with
        limit := some "LIMIT $limit".data,
        variables_ := dinsert "limit".data l qb.d.variables_ }) := by
  obtain ⟨data⟩ := qb
  simp only [QueryBuilder.d] at hl hv ⊢
  simp [QueryBuilder.set_limit, QueryBuilder.add_variable, QueryBuilder.d, hl, hv]

theorem set_limit_second_raises (qb : QueryBuilder) (l : PyVal)
    (h : qb.d.limit.isSome = true) :
    qb.set_limit (some l) false =
      .error "A limit already exists. If you would like to replace it, pass in replace." := by
  simp [QueryBuilder.set_limit, h]

theorem set_limit_replace (qb : QueryBuilder) (l : PyVal) :
    qb.set_limit (some l) true =
      .ok (.mk { qb.d with
        limit := some "LIMIT $limit".data,
        variables_ := dinsert "limit".data l qb.d.variables_ }) := by
  obtain ⟨data⟩ := qb
  cases h : dlookup "limit".data data.variables_ <;>
    simp [QueryBuilder.set_limit, QueryBuilder.add_variable, QueryBuilder.d, h]

theorem set_offset_fresh (qb : QueryBuilder) (o : PyVal) (hl : qb.d.offset = none)
    (hv : dlookup "offset".data qb.d.variables_ = none) :
    qb.set_offset (some o) false =
      .ok (.mk { qb.d with
        offset := some "OFFSET $offset".data,
        variables_ := dinsert "offset".data o qb.d.variables_ }) := by
  obtain ⟨data⟩ := qb
  simp only [QueryBuilder.d] at hl hv ⊢
  simp [QueryBuilder.set_offset, QueryBuilder.add_variable, QueryBuilder.d, hl, hv]

theorem set_offset_second_raises (qb : QueryBuilder) (o : PyVal)
    (h : qb.d.offset.isSome = true) :
    qb.set_offset (some o) false =
      .error "An offset already exists. If you would like to replace it, pass in replace." := by
  simp [QueryBuilder.set_offset, h]

theorem set_offset_replace (qb : QueryBuilder) (o : PyVal) :
    qb.set_offset (some o) true =
      .ok (.mk { qb.d with
        offset := some "OFFSET $offset".data,
        variables_ := dinsert "offset".data o qb.d.variables_ }) := by
  obtain ⟨data⟩ := qb
  cases h : dlookup "offset".data data.variables_ <;>
    simp [QueryBuilder.set_offset, QueryBuilder.add_variable, QueryBuilder.d, h]

/-- `set_where` with no variables argument: the `add_variables` call is a
no-op, so the result only depends on the `where` guard. -/
theorem set_where_novars (qb : QueryBuilder) (w : Str) (replace_where : Bool)
    (h : (pyTruthyStr qb.d.where_ && !replace_where) = false) :
    qb.set_where w none replace_where false = .ok (.mk { qb.d with where_ := some w }) := by
  obtain ⟨data⟩ := qb
  simp only [QueryBuilder.d] at h ⊢
  simp [QueryBuilder.set_where, h, QueryBuilder.add_variables, Except.map, QueryBuilder.d]

theorem set_order_by_novars (qb : QueryBuilder) (o : Str) (replace_order_by : Bool)
    (h : (pyTruthyStr qb.d.order_by && !replace_order_by) = false) :
    qb.set_order_by o none replace_order_by false =
      .ok (.mk { qb.d with order_by := some o }) := by
  obtain ⟨data⟩ := qb
  simp only [QueryBuilder.d] at h ⊢
  simp [QueryBuilder.set_order_by, h, QueryBuilder.add_variables, Except.map, QueryBuilder.d]

/-! ### C8 — builder mutation guards -/

/-- C8 counterexample: the claim says `add_variable` raises
`QueryBuilderError` when called a second time for an already-present variable
key without the replace flag.  It does not: re-adding the *same* key with an
equal (`==`) value and `replace=False` succeeds (the source only raises when
`self.variables[key] != val`).  Here the second `add_variable("a", 7)` call
returns normally. -/
theorem c8_add_variable_equal_value_does_not_raise :
    (((mkQB "t".data .one).add_variable "a".data ⟨0, 7⟩ false).bind
        fun qb => qb.add_variable "a".data ⟨0, 7⟩ false).isOk = true
      ∧ (((mkQB "t".data .one).add_variable "a".data ⟨0, 7⟩ false).bind
        fun qb => qb.add_variable "a".data ⟨0, 7⟩ false).toOption.map
          (fun qb => dlookup "a".data qb.d.variables_) = some (some ⟨0, 7⟩) := by
  constructor <;> rfl

/-- C8 (amended): the slot setters (`set_limit`, `set_offset`, `set_where`,
`set_order_by`) raise `QueryBuilderError` when called a second time with a
real value for an already-set slot without the replace flag, and succeed with
the replace flag with the second value winning; `add_variables` raises for any
already-present key without `replace`; `add_variable`, however, raises only
when the key is present with a *different* (`!=`) value — re-adding an equal
value without `replace` succeeds — and with `replace` the second value wins. -/
theorem c8_mutation_guards :
    -- set_limit: raise on second set; replace wins
    (∀ (qb : QueryBuilder) (l₁ l₂ : PyVal) (qb₁ : QueryBuilder), qb.d.limit = none →
      dlookup "limit".data qb.d.variables_ = none →
      qb.set_limit (some l₁) false = .ok qb₁ →
      (∃ e, qb₁.set_limit (some l₂) false = .error e) ∧
      (∃ qb₂, qb₁.set_limit (some l₂) true = .ok qb₂ ∧
        dlookup "limit".data qb₂.d.variables_ = some l₂ ∧
        qb₂.d.limit = some "LIMIT $limit".data))
    ∧ -- set_offset: raise on second set; replace wins
    (∀ (qb : QueryBuilder) (o₁ o₂ : PyVal) (qb₁ : QueryBuilder), qb.d.offset = none →
      dlookup "offset".data qb.d.variables_ = none →
      qb.set_offset (some o₁) false = .ok qb₁ →
      (∃ e, qb₁.set_offset (some o₂) false = .error e) ∧
      (∃ qb₂, qb₁.set_offset (some o₂) true = .ok qb₂ ∧
        dlookup "offset".data qb₂.d.variables_ = some o₂ ∧
        qb₂.d.offset = some "OFFSET $offset".data))
    ∧ -- set_where: raise on second set; replace_where wins
    (∀ (qb : QueryBuilder) (w₁ w₂ : Str) (qb₁ : QueryBuilder), w₁ ≠ [] → qb.d.where_ = none →
      qb.set_where w₁ none false false = .ok qb₁ →
      (∃ e, qb₁.set_where w₂ none false false = .error e) ∧
      (∃ qb₂, qb₁.set_where w₂ none true false = .ok qb₂ ∧ qb₂.d.where_ = some w₂))
    ∧ -- set_order_by: raise on second set; replace_order_by wins
    (∀ (qb : QueryBuilder) (o₁ o₂ : Str) (qb₁ : QueryBuilder), o₁ ≠ [] → qb.d.order_by = none →
      qb.set_order_by o₁ none false false = .ok qb₁ →
      (∃ e, qb₁.set_order_by o₂ none false false = .error e) ∧
      (∃ qb₂, qb₁.set_order_by o₂ none true false = .ok qb₂ ∧ qb₂.d.order_by = some o₂))
    ∧ -- add_variable: raises only for a different value; replace wins
    (∀ (qb : QueryBuilder) (k : Str) (v₀ v : PyVal), dlookup k qb.d.variables_ = some v₀ →
      (¬ pyEq v₀ v = true → ∃ e, qb.add_variable k v false = .error e) ∧
      (pyEq v₀ v = true → ∃ qb', qb.add_variable k v false = .ok qb') ∧
      (∃ qb', qb.add_variable k v true = .ok qb' ∧ dlookup k qb'.d.variables_ = some v))
    ∧ -- add_variables: any present key raises without replace; replace wins
    (∀ (qb : QueryBuilder) (k : Str) (v₀ v : PyVal), dlookup k qb.d.variables_ = some v₀ →
      (∃ e, qb.add_variables (some [(k, v)]) false = .error e) ∧
      (∃ qb', qb.add_variables (some [(k, v)]) true = .ok qb' ∧
        dlookup k qb'.d.variables_ = some v)) := by
  refine ⟨?_, ?_, ?_, ?_, ?_, ?_⟩
  · intro qb l₁ l₂ qb₁ hl hv hok
    rw [set_limit_fresh qb l₁ hl hv] at hok
    obtain rfl : qb₁ = _ := (Except.ok.injEq _ _).mp hok.symm
    refine ⟨⟨_, set_limit_second_raises _ l₂ (by simp [QueryBuilder.d])⟩,
      _, set_limit_replace _ l₂, ?_, ?_⟩
    · simp [QueryBuilder.d, dlookup_dinsert_self]
    · simp [QueryBuilder.d]
  · intro qb o₁ o₂ qb₁ hl hv hok
    rw [set_offset_fresh qb o₁ hl hv] at hok
    obtain rfl : qb₁ = _ := (Except.ok.injEq _ _).mp hok.symm
    refine ⟨⟨_, set_offset_second_raises _ o₂ (by simp [QueryBuilder.d])⟩,
      _, set_offset_replace _ o₂, ?_, ?_⟩
    · simp [QueryBuilder.d, dlookup_dinsert_self]
    · simp [QueryBuilder.d]
  · intro qb w₁ w₂ qb₁ hw hwn hok
    rw [set_where_novars qb w₁ false (by simp [pyTruthyStr, hwn])] at hok
    obtain rfl : qb₁ = _ := (Except.ok.injEq _ _).mp hok.symm
    constructor
    · refine ⟨"Where by already exists.", ?_⟩
      simp [QueryBuilder.set_where, QueryBuilder.d, pyTruthyStr, List.isEmpty_iff, hw]
    · exact ⟨_, set_where_novars _ w₂ true (by simp), by simp [QueryBuilder.d]⟩
  · intro qb o₁ o₂ qb₁ ho hon hok
    rw [set_order_by_novars qb o₁ false (by simp [pyTruthyStr, hon])] at hok
    obtain rfl : qb₁ = _ := (Except.ok.injEq _ _).mp hok.symm
    constructor
    · refine ⟨"Order by already exists.", ?_⟩
      simp [QueryBuilder.set_order_by, QueryBuilder.d, pyTruthyStr, List.isEmpty_iff, ho]
    · exact ⟨_, set_order_by_novars _ o₂ true (by simp), by simp [QueryBuilder.d]⟩
  · intro qb k v₀ v hv
    refine ⟨?_, ?_, ?_⟩
    · intro hne
      have hne' : pyEq v₀ v = false := by revert hne; cases pyEq v₀ v <;> simp
      exact ⟨"Key already exists in variables so you cannot add it.",
        by simp [QueryBuilder.add_variable, hv, hne']⟩
    · intro heq
      exact ⟨.mk { qb.d with variables_ := dinsert k v qb.d.variables_ },
        by simp [QueryBuilder.add_variable, hv, heq]⟩
    · refine ⟨.mk { qb.d with variables_ := dinsert k v qb.d.variables_ }, ?_, ?_⟩
      · simp [QueryBuilder.add_variable, hv]
      · simp [QueryBuilder.d, dlookup_dinsert_self]
  · intro qb k v₀ v hv
    refine ⟨⟨"Key already exists in variables so you cannot add it.", ?_⟩, ?_⟩
    · simp [QueryBuilder.add_variables, dmem, hv]
    · refine ⟨.mk { qb.d with variables_ := dinsert k v qb.d.variables_ }, ?_, ?_⟩
      · simp [QueryBuilder.add_variables]
      · simp [QueryBuilder.d, dlookup_dinsert_self]

/-- Witness for `c8_mutation_guards`: a concrete builder whose `limit` slot is
already set; the second `set_limit` without replace raises. -/
theorem c8_mutation_guards_witness :
    ∃ e, (QueryBuilder.mk { (mkQB "t".data .one).d with
      limit := some "LIMIT $limit".data,
      variables_ := [("limit".data, (⟨0, 1⟩ : PyVal))] }).set_limit (some ⟨1, 2⟩) false
        = .error e := by
  exact (c8_mutation_guards.1 (mkQB "t".data .one) ⟨0, 1⟩ ⟨1, 2⟩ _ rfl rfl rfl).1

/-! ### String lemmas for the composed query text -/

/-- `pyReplace` with pattern head `p` leaves any `p`-free prefix untouched. -/
theorem pyReplace_append_of_not_head (p : Char) (ps rep pre rest : Str)
    (h : p ∉ pre) :
    pyReplace p ps rep (pre ++ rest) = pre ++ pyReplace p ps rep rest := by
  induction pre with
  | nil => simp
  | cons c cs ih =>
    have hc : ¬c = p := fun hh => h (hh ▸ List.mem_cons_self c cs)
    rw [List.cons_append, pyReplace_cons, if_neg (by simp [hc]), ih fun hm => h (List.mem_cons_of_mem c hm)]
    simp

/-- Stripping whitespace from `w ++ pre ++ rest` keeps `pre` as a prefix when
`w` is all whitespace and `pre` starts and ends with non-whitespace. -/
theorem pyStrip_append_prefix (w pre rest : Str)
    (hw : ∀ c ∈ w, c.isWhitespace = true)
    (hhead : ∃ c cs, pre = c :: cs ∧ c.isWhitespace = false)
    (hrev : ∃ c cs, pre.reverse = c :: cs ∧ c.isWhitespace = false) :
    ∃ t, pyStrip (w ++ (pre ++ rest)) = pre ++ t := by
  obtain ⟨c, cs, hpre, hc⟩ := hhead
  obtain ⟨c', cs', hprev, hc'⟩ := hrev
  have hleft : (w ++ (pre ++ rest)).dropWhile (fun ch => ch.isWhitespace) = pre ++ rest := by
    rw [List.dropWhile_append]
    have hwnil : w.dropWhile (fun ch => ch.isWhitespace) = [] :=
      List.dropWhile_eq_nil_iff.mpr hw
    simp only [hwnil, List.isEmpty_nil, if_true]
    rw [hpre, List.cons_append, List.dropWhile_cons, hc]
    simp
  unfold pyStrip
  rw [hleft, List.reverse_append, List.dropWhile_append]
  cases hre : (List.dropWhile (fun ch => ch.isWhitespace) rest.reverse).isEmpty with
  | true =>
    refine ⟨[], ?_⟩
    rw [if_pos rfl, hprev, List.dropWhile_cons]
    simp only [hc', Bool.false_eq_true, if_false]
    rw [← hprev, List.reverse_reverse, List.append_nil]
  | false =>
    refine ⟨(List.dropWhile (fun ch => ch.isWhitespace) rest.reverse).reverse, ?_⟩
    rw [if_neg (by simp), List.reverse_append, List.reverse_reverse]

/-- A list cannot have a different list of the same length as a prefix, even
after appending. -/
theorem isPrefixOf_append_ne (a b t : Str) (hlen : a.length = b.length)
    (hne : a ≠ b) : a.isPrefixOf (b ++ t) = false := by
  rw [← Bool.not_eq_true, List.isPrefixOf_iff_prefix]
  intro hpre
  apply hne
  have := List.prefix_iff_eq_take.mp hpre
  rw [this, hlen, List.take_left]

theorem isPrefixOf_append_self (a t : Str) : a.isPrefixOf (a ++ t) = true := by
  rw [List.isPrefixOf_iff_prefix]
  exact List.prefix_append a t

/-! ### C6 — cardinality-controlled aggregation wrapping -/

/-- The core of C6 at the level of `finishBuild`: with no full-query-string
template and no CTEs, the composed text starts with the aggregating
`SELECT COALESCE(json_agg(` sub-select iff the cardinality is `MANY` (the
`ONE` text starts with the single-row `SELECT json_build_object(` instead). -/
theorem finishBuild_agg_iff_many (qb : QueryBuilder) (ta fs : Str)
    (pta : Option Str) (hfq : qb.d.full_query_str = none)
    (hctes : qb.d.ctes = []) :
    List.isPrefixOf "SELECT COALESCE(json_agg(".data (finishBuild qb ta fs pta) = true
      ↔ qb.d.cardinality = .many := by
  have hlitA : ("\nSELECT COALESCE(json_agg(".data : Str)
      = '\n' :: "SELECT COALESCE(json_agg(".data := by decide
  have hlitQ : ("\nSELECT json_build_object(\n    ".data : Str)
      = '\n' :: ("SELECT json_build_object(".data ++ "\n    ".data) := by decide
  have hone : ∃ t, assembleCore qb ta fs = "SELECT json_build_object(".data ++ t := by
    unfold assembleCore
    rw [hctes]
    simp only [List.map_nil, joinSep, List.nil_append, hlitQ, List.cons_append,
      List.append_assoc]
    exact pyStrip_append_prefix ['\n', '\n'] "SELECT json_build_object(".data _
      (by decide) ⟨'S', "ELECT json_build_object(".data, by decide, by decide⟩
      ⟨'(', "SELECT json_build_object".data.reverse, by decide, by decide⟩
  have hmany : ∀ s0 : Str, ∃ t, aggWrap ta s0 = "SELECT COALESCE(json_agg(".data ++ t := by
    intro s0
    unfold aggWrap
    simp only [hlitA, List.cons_append, List.append_assoc]
    exact pyStrip_append_prefix ['\n'] "SELECT COALESCE(json_agg(".data _
      (by decide) ⟨'S', "ELECT COALESCE(json_agg(".data, by decide, by decide⟩
      ⟨'(', "SELECT COALESCE(json_agg".data.reverse, by decide, by decide⟩
  have hrepl : ∀ u t : Str, '$' ∉ u →
      ∃ t', replace_current_and_parent (u ++ t) (some ta) pta = u ++ t' := by
    intro u t hu
    cases pta with
    | none =>
      refine ⟨pyReplace '$' "current".data ta t, ?_⟩
      simp only [replace_current_and_parent]
      rw [pyReplace_append_of_not_head '$' "current".data ta u t hu]
    | some pa =>
      refine ⟨pyReplace '$' "parent".data pa (pyReplace '$' "current".data ta t), ?_⟩
      simp only [replace_current_and_parent]
      rw [pyReplace_append_of_not_head '$' "current".data ta u t hu,
        pyReplace_append_of_not_head '$' "parent".data pa u _ hu]
  cases hcard : qb.d.cardinality with
  | many =>
    obtain ⟨t, ht⟩ := hmany (assembleCore qb ta fs)
    obtain ⟨t', ht'⟩ := hrepl "SELECT COALESCE(json_agg(".data t (by decide)
    have hfb : finishBuild qb ta fs pta
        = replace_current_and_parent ("SELECT COALESCE(json_agg(".data ++ t)
            (some ta) pta := by
      simp [finishBuild, hcard, hfq, ht]
    rw [hfb, ht', isPrefixOf_append_self]
    simp [hcard]
  | one =>
    obtain ⟨t, ht⟩ := hone
    obtain ⟨t', ht'⟩ := hrepl "SELECT json_build_object(".data t (by decide)
    have hfb : finishBuild qb ta fs pta
        = replace_current_and_parent ("SELECT json_build_object(".data ++ t)
            (some ta) pta := by
      simp [finishBuild, hcard, hfq, ht]
    rw [hfb, ht', isPrefixOf_append_ne _ _ _ (by decide) (by decide)]
    simp [hcard]

/-- C6: `QueryBuilder.build` wraps the composed single-row selection in the
aggregating `SELECT COALESCE(json_agg(...))` sub-select iff the builder's
cardinality is `MANY`; with `ONE` and an otherwise identical builder the text
is not wrapped, for any builder without a full-query-string override or CTEs
whose build succeeds. -/
theorem c6_build_aggregates_iff_many (fuel : Nat) (qb : QueryBuilder)
    (pta : Option Str) (path : List Str) (ofa : Bool) (s : Str)
    (v : List (Str × PyVal)) (hfq : qb.d.full_query_str = none)
    (hctes : qb.d.ctes = []) (hok : buildQB fuel qb pta path ofa = .ok (s, v)) :
    List.isPrefixOf "SELECT COALESCE(json_agg(".data s = true
      ↔ qb.d.cardinality = .many := by
  cases fuel with
  | zero => simp [buildQB] at hok
  | succ fuel =>
    simp only [buildQB] at hok
    split at hok
    · exact absurd hok (by simp)
    · split at hok <;> split at hok <;> simp only [Except.ok.injEq, Prod.mk.injEq,
          reduceCtorEq] at hok <;>
        (obtain ⟨hs, hv⟩ := hok
         rw [← hs]
         exact finishBuild_agg_iff_many qb _ _ pta hfq hctes)

/-- Witness for `c6_build_aggregates_iff_many`: one concrete single-selection
builder built with `MANY` (text is agg-wrapped) and the otherwise identical
builder with `ONE` (text is not). -/
theorem c6_build_aggregates_iff_many_witness :
    ∃ s v s' v',
      buildQB 1 (QueryBuilder.mk ⟨"t".data, none, .many,
        [.field "x".data "$current.x".data none], [], [], none, none, none, none,
        none, none, none⟩) none [] false = .ok (s, v) ∧
      List.isPrefixOf "SELECT COALESCE(json_agg(".data s = true ∧
      buildQB 1 (QueryBuilder.mk ⟨"t".data, none, .one,
        [.field "x".data "$current.x".data none], [], [], none, none, none, none,
        none, none, none⟩) none [] false = .ok (s', v') ∧
      List.isPrefixOf "SELECT COALESCE(json_agg(".data s' = false := by
  refine ⟨_, _, _, _, rfl, ?_, rfl, ?_⟩
  · exact (c6_build_aggregates_iff_many 1 (QueryBuilder.mk ⟨"t".data, none, .many,
      [.field "x".data "$current.x".data none], [], [], none, none, none, none,
      none, none, none⟩) none [] false _ _ rfl rfl rfl).mpr rfl
  · have h2 := c6_build_aggregates_iff_many 1 (QueryBuilder.mk ⟨"t".data, none, .one,
      [.field "x".data "$current.x".data none], [], [], none, none, none, none,
      none, none, none⟩) none [] false _ _ rfl rfl rfl
    exact Bool.eq_false_iff.mpr fun hh => (by decide : ¬(Cardinality.one = .many)) (h2.mp hh)

/-! ### C5 — variable merging when composing subqueries -/

theorem refMatch_false_of_ne_dollar (vn : Str) (c : Char) (rest : Str)
    (hc : ¬c = '$') : refMatch vn c rest = false := by
  simp [refMatch, hc]

/-- `dollarSub` copies any dollar-free prefix verbatim. -/
theorem dollarSub_append_no_dollar (vn nn : Str) : ∀ a t : Str, '$' ∉ a →
    dollarSub vn nn (a ++ t) = a ++ dollarSub vn nn t := by
  intro a
  induction a with
  | nil => intro t _; simp
  | cons c cs ih =>
    intro t ha
    have hc : ¬c = '$' := fun hh => ha (hh ▸ List.mem_cons_self c cs)
    rw [List.cons_append, dollarSub_cons, refMatch_false_of_ne_dollar _ _ _ hc]
    simp only [Bool.false_eq_true, if_false]
    rw [ih t fun hm => ha (List.mem_cons_of_mem c hm), List.cons_append]

/-- `countRefs` sees no matches inside a dollar-free prefix. -/
theorem countRefs_append_no_dollar (vn : Str) : ∀ a t : Str, '$' ∉ a →
    countRefs vn (a ++ t) = countRefs vn t := by
  intro a
  induction a with
  | nil => intro t _; simp
  | cons c cs ih =>
    intro t ha
    have hc : ¬c = '$' := fun hh => ha (hh ▸ List.mem_cons_self c cs)
    rw [List.cons_append, countRefs_cons, refMatch_false_of_ne_dollar _ _ _ hc]
    simp only [Bool.false_eq_true, if_false]
    exact ih t fun hm => ha (List.mem_cons_of_mem c hm)

theorem prefix_append_or (a b t : Str) (h : a <+: b ++ t) : a <+: b ∨ b <+: a :=
  List.prefix_or_prefix_of_prefix h (List.prefix_append b t)

/-- A dollar-free string that was not a prefix of `s` is not a prefix of the
substituted text either. -/
theorem not_prefix_dollarSub (vn nn u s : Str) (hu : '$' ∉ u) (h : ¬u <+: s) :
    ¬u <+: dollarSub vn nn s := by
  have main : ∀ (n : Nat) (s u : Str), s.length ≤ n → '$' ∉ u → ¬u <+: s →
      ¬u <+: dollarSub vn nn s := by
    intro n
    induction n with
    | zero =>
      intro s u hs hu h
      obtain rfl : s = [] := List.length_eq_zero.mp (Nat.le_zero.mp hs)
      rw [dollarSub_nil]
      exact h
    | succ n IH =>
      intro s u hs hu h
      cases s with
      | nil =>
        rw [dollarSub_nil]
        exact h
      | cons c rest =>
        cases u with
        | nil => exact absurd List.nil_prefix h
        | cons x u' =>
          rw [dollarSub_cons]
          by_cases hm : refMatch vn c rest = true
          · rw [if_pos hm]
            intro hpre
            have hx : x = '$' := (List.cons_prefix_cons.mp hpre).1
            exact hu (hx ▸ List.mem_cons_self x u')
          · rw [if_neg hm]
            intro hpre
            obtain ⟨hx, hp'⟩ := List.cons_prefix_cons.mp hpre
            have hlen : rest.length ≤ n := by
              simp only [List.length_cons] at hs; omega
            have hnr : ¬u' <+: rest := fun hp2 =>
              h (by rw [hx]; exact List.cons_prefix_cons.mpr ⟨rfl, hp2⟩)
            exact IH rest u' hlen (fun hm2 => hu (List.mem_cons_of_mem x hm2)) hnr hp'
  exact main s.length s u le_rfl hu h

/-- After `dollarSub vn nn s`, no `$vn` reference is left: every occurrence of
the old variable reference has been rewritten to the new name.  The
hypotheses say the two names are dollar-free and neither is a prefix of the
other (renamed names have the shape `_<child>_<old>`, which satisfies this). -/
theorem countRefs_dollarSub_zero (vn nn : Str) (hdv : '$' ∉ vn) (hdn : '$' ∉ nn)
    (hvn : ¬vn <+: nn) (hnv : ¬nn <+: vn) :
    ∀ s : Str, countRefs vn (dollarSub vn nn s) = 0 := by
  have main : ∀ (n : Nat) (s : Str), s.length ≤ n →
      countRefs vn (dollarSub vn nn s) = 0 := by
    intro n
    induction n with
    | zero =>
      intro s hs
      obtain rfl : s = [] := List.length_eq_zero.mp (Nat.le_zero.mp hs)
      rw [dollarSub_nil, countRefs_nil]
    | succ n IH =>
      intro s hs
      cases s with
      | nil => rw [dollarSub_nil, countRefs_nil]
      | cons c rest =>
        have hrlen : rest.length ≤ n := by
          simp only [List.length_cons] at hs; omega
        rw [dollarSub_cons]
        by_cases hm : refMatch vn c rest = true
        · rw [if_pos hm]
          rw [countRefs_cons]
          have hpf : List.isPrefixOf vn
              (nn ++ dollarSub vn nn (rest.drop vn.length)) = false := by
            rw [← Bool.not_eq_true, List.isPrefixOf_iff_prefix]
            intro hp
            rcases prefix_append_or _ _ _ hp with h | h
            · exact hvn h
            · exact hnv h
          rw [show refMatch vn '$' (nn ++ dollarSub vn nn (rest.drop vn.length))
              = false from by simp [refMatch, hpf]]
          simp only [Bool.false_eq_true, if_false]
          rw [countRefs_append_no_dollar vn nn _ hdn]
          refine IH _ ?_
          have := List.length_drop vn.length rest
          omega
        · rw [if_neg hm]
          by_cases hc : c = '$'
          · subst hc
            by_cases hpv : List.isPrefixOf vn rest = true
            · -- the match failed only because of the lookahead: a word char follows
              have hlook : (match rest.drop vn.length with
                  | [] => false
                  | d :: _ => isWordChar d) = true := by
                rcases Bool.eq_false_or_eq_true
                    (match rest.drop vn.length with
                      | [] => false
                      | d :: _ => isWordChar d) with hT | hF
                · exact hT
                · exact absurd (by simp [refMatch, hpv, hF]) hm
              cases hd : rest.drop vn.length with
              | nil =>
                rw [hd] at hlook
                exact absurd (show (false : Bool) = true from hlook) (by simp)
              | cons w tail =>
                rw [hd] at hlook
                have hlw : isWordChar w = true := hlook
                have hrest : rest = vn ++ w :: tail := by
                  have h1 : vn = rest.take vn.length :=
                    List.prefix_iff_eq_take.mp (List.isPrefixOf_iff_prefix.mp hpv)
                  conv_lhs => rw [← List.take_append_drop vn.length rest]
                  rw [← h1, hd]
                have hw' : ¬w = '$' := by
                  intro hh
                  rw [hh] at hlw
                  exact absurd hlw (by decide)
                rw [hrest, dollarSub_append_no_dollar vn nn vn _ hdv,
                  show dollarSub vn nn (w :: tail) = w :: dollarSub vn nn tail from by
                    rw [dollarSub_cons, refMatch_false_of_ne_dollar _ _ _ hw']
                    simp]
                rw [countRefs_cons]
                have hd2 : (vn ++ w :: dollarSub vn nn tail).drop vn.length
                    = w :: dollarSub vn nn tail := List.drop_left vn _
                rw [show refMatch vn '$' (vn ++ w :: dollarSub vn nn tail) = false from by
                  simp [refMatch, hd2, hlw]]
                simp only [Bool.false_eq_true, if_false]
                rw [countRefs_append_no_dollar vn vn _ hdv,
                  show countRefs vn (w :: dollarSub vn nn tail)
                      = countRefs vn (dollarSub vn nn tail) from by
                    rw [countRefs_cons, refMatch_false_of_ne_dollar _ _ _ hw']
                    simp]
                have htlen : tail.length ≤ n := by
                  rw [hrest] at hrlen
                  simp only [List.length_append, List.length_cons] at hrlen
                  omega
                exact IH tail htlen
            · -- vn was not a prefix of the remaining text, and still is not
              have hnp : ¬vn <+: rest :=
                fun hp => hpv (List.isPrefixOf_iff_prefix.mpr hp)
              have hnp' : ¬vn <+: dollarSub vn nn rest :=
                not_prefix_dollarSub vn nn vn rest hdv hnp
              rw [countRefs_cons]
              rw [show refMatch vn '$' (dollarSub vn nn rest) = false from by
                have hb : List.isPrefixOf vn (dollarSub vn nn rest) = false := by
                  rw [← Bool.not_eq_true, List.isPrefixOf_iff_prefix]
                  exact hnp'
                simp [refMatch, hb]]
              simp only [Bool.false_eq_true, if_false]
              exact IH rest hrlen
          · rw [countRefs_cons, refMatch_false_of_ne_dollar _ _ _ hc]
            simp only [Bool.false_eq_true, if_false]
            exact IH rest hrlen
  exact fun s => main s.length s le_rfl

/-- Candidate names in `build_child_var_name`'s loop never shrink. -/
theorem buildVarGo_length_le (cn : Str) :
    ∀ (fuel : Nat) (vn : Str) (vars : List (Str × PyVal)),
      vn.length ≤ (buildVarGo cn fuel vn vars).length := by
  intro fuel
  induction fuel with
  | zero => intro vn vars; simp [buildVarGo]
  | succ f ih =>
    intro vn vars
    rw [buildVarGo]
    by_cases h : dmem vn vars = true
    · rw [if_pos h]
      refine le_trans ?_ (ih ('_' :: (cn ++ '_' :: vn)) vars)
      simp only [List.length_cons, List.length_append]
      omega
    · rw [if_neg h]

/-- A colliding variable really is renamed: when `var_name` is already bound,
`build_child_var_name` returns a strictly longer (hence different) name. -/
theorem build_child_var_name_ne (name vn : Str) (vars : List (Str × PyVal))
    (h : dmem vn vars = true) : build_child_var_name name vn vars ≠ vn := by
  intro heq
  have hlen := buildVarGo_length_le (sanitizeName name) vars.length
    ('_' :: (sanitizeName name ++ '_' :: vn)) vars
  unfold build_child_var_name at heq
  rw [buildVarGo, if_pos h] at heq
  have := congrArg List.length heq
  simp only [List.length_cons, List.length_append] at this hlen
  omega

/-- C5: variable merging when a parent query is composed from child builders
(`build_subquery`, lines 232-247).  Conjuncts, writing `nn` for the renamed
name `build_child_var_name(child, vn, vars)`:
1. a child variable whose name is already bound in the parent map to the
   *identical* object (`is`) is reused: neither the map nor the child text
   changes;
2. a child variable whose name is bound to a different object is renamed to
   `nn` (derived from the child's edge name), the child's text is rewritten
   with `dollarSub`, the parent's own binding under the old name survives,
   and the new name (which differs from the old) maps to the child's value;
3. a fresh name is added unchanged;
4. after the rewrite no `$vn` reference remains in the child's text
   (the old token is gone wherever it occurred);
5. end to end: two children each declaring `limit` with different values
   under one parent yield the two distinct names `limit` and `_c2_limit`,
   each referenced exactly once in the composed text (no
   cross-contamination). -/
theorem c5_child_variable_merging :
    (∀ (name vn : Str) (vv ex : PyVal) (s : Str) (vars : List (Str × PyVal)),
      dlookup vn vars = some ex → pyIs vv ex = true →
      mergeChildVars name [(vn, vv)] s vars = (s, vars))
    ∧ (∀ (name vn : Str) (vv ex : PyVal) (s : Str) (vars : List (Str × PyVal)),
      dlookup vn vars = some ex → pyIs vv ex = false →
      mergeChildVars name [(vn, vv)] s vars
        = (dollarSub vn (build_child_var_name name vn vars) s,
           dinsert (build_child_var_name name vn vars) vv vars)
      ∧ build_child_var_name name vn vars ≠ vn
      ∧ dlookup vn (dinsert (build_child_var_name name vn vars) vv vars) = some ex
      ∧ dlookup (build_child_var_name name vn vars)
          (dinsert (build_child_var_name name vn vars) vv vars) = some vv)
    ∧ (∀ (name vn : Str) (vv : PyVal) (s : Str) (vars : List (Str × PyVal)),
      dlookup vn vars = none →
      mergeChildVars name [(vn, vv)] s vars = (s, dinsert vn vv vars))
    ∧ (∀ vn nn : Str, '$' ∉ vn → '$' ∉ nn → ¬vn <+: nn → ¬nn <+: vn →
      ∀ s : Str, countRefs vn (dollarSub vn nn s) = 0)
    ∧ ((buildQB 5 (QueryBuilder.mk ⟨"p".data, none, .one,
        [.sub "c1".data (QueryBuilder.mk ⟨"t".data, none, .one,
          [.field "x".data "$current.x".data none],
          [("limit".data, ⟨1, 10⟩)], [], none, none, none, none,
          some "LIMIT $limit".data, none, none⟩),
         .sub "c2".data (QueryBuilder.mk ⟨"t".data, none, .one,
          [.field "x".data "$current.x".data none],
          [("limit".data, ⟨2, 20⟩)], [], none, none, none, none,
          some "LIMIT $limit".data, none, none⟩)],
        [], [], none, none, none, none, none, none, none⟩) none [] false).toOption.map
      (fun sv => (sv.2.map Prod.fst, dlookup "limit".data sv.2,
        dlookup "_c2_limit".data sv.2, countRefs "limit".data sv.1,
        countRefs "_c2_limit".data sv.1))
      = some (["limit".data, "_c2_limit".data], some ⟨1, 10⟩, some ⟨2, 20⟩, 1, 1)) := by
  refine ⟨?_, ?_, ?_, countRefs_dollarSub_zero, ?_⟩
  · intro name vn vv ex s vars hl his
    simp [mergeChildVars, hl, his]
  · intro name vn vv ex s vars hl his
    have hmem : dmem vn vars = true := by simp [dmem, hl]
    have hne := build_child_var_name_ne name vn vars hmem
    refine ⟨by simp [mergeChildVars, hl, his], hne, ?_, dlookup_dinsert_self _ _ _⟩
    rw [dlookup_dinsert_ne _ _ fun hh => hne hh.symm]
    exact hl
  · intro name vn vv s vars hl
    simp [mergeChildVars, hl]
  · decide

/-- Witness for `c5_child_variable_merging`: the reuse rule at an identical
value, and the rewrite rule erasing every old reference for the concrete
rename of `limit` to `_c2_limit`. -/
theorem c5_child_variable_merging_witness :
    mergeChildVars "c".data [("limit".data, ⟨3, 7⟩)] "LIMIT $limit".data
        [("limit".data, ⟨3, 7⟩)]
      = ("LIMIT $limit".data, [("limit".data, ⟨3, 7⟩)])
    ∧ countRefs "limit".data
        (dollarSub "limit".data "_c2_limit".data "LIMIT $limit".data) = 0 := by
  constructor
  · exact c5_child_variable_merging.1 "c".data "limit".data ⟨3, 7⟩ ⟨3, 7⟩
      "LIMIT $limit".data [("limit".data, ⟨3, 7⟩)] rfl rfl
  · exact c5_child_variable_merging.2.2.2.1 "limit".data "_c2_limit".data
      (by decide) (by decide) (by decide) (by decide) "LIMIT $limit".data

/-! ### Translator lemmas: the `has_seen` merge dict -/

theorem dlookup_mem {κ α : Type} [DecidableEq κ] {k : κ} {v : α}
    {d : List (κ × α)} (h : dlookup k d = some v) : (k, v) ∈ d := by
  induction d with
  | nil => simp [dlookup] at h
  | cons hd tl ih =>
    obtain ⟨k₀, v₀⟩ := hd
    by_cases h2 : k₀ = k
    · subst h2
      simp [dlookup] at h
      subst h
      exact List.mem_cons_self _ _
    · simp [dlookup, h2] at h
      exact List.mem_cons_of_mem _ (ih h)

theorem mem_dinsert {κ α : Type} [DecidableEq κ] {k : κ} {v : α}
    {p : κ × α} {d : List (κ × α)} (h : p ∈ dinsert k v d) :
    p = (k, v) ∨ p ∈ d := by
  induction d with
  | nil => simpa [dinsert] using h
  | cons hd tl ih =>
    obtain ⟨k₀, v₀⟩ := hd
    by_cases h2 : k₀ = k
    · subst h2
      rw [dinsert, if_pos rfl] at h
      rcases List.mem_cons.mp h with h | h
      · exact Or.inl h
      · exact Or.inr (List.mem_cons_of_mem _ h)
    · rw [dinsert, if_neg h2] at h
      rcases List.mem_cons.mp h with h | h
      · exact Or.inr (by simp [h])
      · rcases ih h with h3 | h3
        · exact Or.inl h3
        · exact Or.inr (List.mem_cons_of_mem _ h3)

theorem mem_keys_dinsert {κ α : Type} [DecidableEq κ] {k k₁ : κ} {v : α}
    {d : List (κ × α)} (h : k₁ ∈ (dinsert k v d).map Prod.fst) :
    k₁ = k ∨ k₁ ∈ d.map Prod.fst := by
  rcases List.mem_map.mp h with ⟨p, hp, hfst⟩
  rcases mem_dinsert hp with h3 | h3
  · subst h3
    exact Or.inl hfst.symm
  · exact Or.inr (List.mem_map.mpr ⟨p, h3, hfst⟩)

theorem dinsert_nodup_keys {κ α : Type} [DecidableEq κ] (k : κ) (v : α)
    (d : List (κ × α)) (h : (d.map Prod.fst).Nodup) :
    ((dinsert k v d).map Prod.fst).Nodup := by
  induction d with
  | nil => simp [dinsert]
  | cons hd tl ih =>
    obtain ⟨k₀, v₀⟩ := hd
    simp only [List.map_cons, List.nodup_cons] at h
    by_cases h2 : k₀ = k
    · subst h2
      simpa [dinsert, List.nodup_cons] using h
    · simp only [dinsert, List.map_cons]
      rw [if_neg h2]
      simp only [List.map_cons, List.nodup_cons]
      refine ⟨?_, ih h.2⟩
      intro hmem
      rcases mem_keys_dinsert hmem with h3 | h3
      · exact h2 h3
      · exact h.1 h3

theorem selKey_combineSels (a b : GqlSel) :
    selKey (combineSels a b) = selKey a := by
  cases a <;> rfl

theorem isSpread_combineSels (a b : GqlSel) :
    isSpread (combineSels a b) = isSpread a := by
  cases a <;> rfl

theorem isFieldSel_combineSels (a b : GqlSel) :
    isFieldSel (combineSels a b) = isFieldSel a := by
  cases a <;> rfl

/-- One merge-loop step keeps the `has_seen` invariant: keys are distinct,
each entry sits under its own selection key, and no entry is a spread. -/
theorem mergeStep_inv (seen : List (SelKey × GqlSel)) (sel : GqlSel)
    (hs : isSpread sel = false)
    (hnd : (seen.map Prod.fst).Nodup)
    (hinv : ∀ p ∈ seen, p.1 = selKey p.2 ∧ isSpread p.2 = false) :
    ((mergeStep seen sel).map Prod.fst).Nodup ∧
      ∀ p ∈ mergeStep seen sel, p.1 = selKey p.2 ∧ isSpread p.2 = false := by
  refine ⟨dinsert_nodup_keys _ _ _ hnd, ?_⟩
  intro p hp
  rcases mem_dinsert hp with h | h
  · subst h
    cases hl : dlookup (selKey sel) seen with
    | none => exact ⟨rfl, hs⟩
    | some e =>
      have he := (hinv _ (dlookup_mem hl))
      refine ⟨?_, ?_⟩
      · show selKey sel = selKey (combineSels e sel)
        rw [selKey_combineSels]; exact he.1
      · show isSpread (combineSels e sel) = false
        rw [isSpread_combineSels]; exact he.2
  · exact hinv p h

/-- The merge loop of `children_from_node` leaves `has_seen` with pairwise
distinct keys, each entry keyed by its own selection key and none a spread. -/
theorem flattenMerge_inv (cfg : TransCfg) :
    ∀ (fuel : Nat) (q : List GqlSel) (seen out : List (SelKey × GqlSel)),
    flattenMerge cfg fuel q seen = .ok out →
    (seen.map Prod.fst).Nodup →
    (∀ p ∈ seen, p.1 = selKey p.2 ∧ isSpread p.2 = false) →
    (out.map Prod.fst).Nodup ∧
      ∀ p ∈ out, p.1 = selKey p.2 ∧ isSpread p.2 = false := by
  intro fuel
  induction fuel with
  | zero =>
    intro q seen out hok hnd hinv
    cases q with
    | nil =>
      simp only [flattenMerge, Except.ok.injEq] at hok
      subst hok; exact ⟨hnd, hinv⟩
    | cons s rest => simp [flattenMerge] at hok
  | succ f ih =>
    intro q seen out hok hnd hinv
    cases q with
    | nil =>
      simp only [flattenMerge, Except.ok.injEq] at hok
      subst hok; exact ⟨hnd, hinv⟩
    | cons s rest =>
      cases s with
      | spread n =>
        simp only [flattenMerge] at hok
        cases hfr : dlookup n cfg.frags with
        | none => rw [hfr] at hok; simp at hok
        | some sels =>
          rw [hfr] at hok
          exact ih (rest ++ sels) seen out hok hnd hinv
      | field al nm args ss =>
        simp only [flattenMerge] at hok
        have hm := mergeStep_inv seen (.field al nm args ss) rfl hnd hinv
        exact ih rest (mergeStep seen (.field al nm args ss)) out hok hm.1 hm.2
      | inlineFrag nid tc ss =>
        simp only [flattenMerge] at hok
        have hm := mergeStep_inv seen (.inlineFrag nid tc ss) rfl hnd hinv
        exact ih rest (mergeStep seen (.inlineFrag nid tc ss)) out hok hm.1 hm.2

/-- A successful merge of a spread-free sibling list is exactly the fold of
`mergeStep` over it. -/
theorem flattenMerge_ok_spreadFree (cfg : TransCfg) :
    ∀ (fuel : Nat) (q : List GqlSel) (seen out : List (SelKey × GqlSel)),
    flattenMerge cfg fuel q seen = .ok out →
    (∀ s ∈ q, isSpread s = false) →
    out = q.foldl mergeStep seen := by
  intro fuel
  induction fuel with
  | zero =>
    intro q seen out hok hsf
    cases q with
    | nil =>
      simp only [flattenMerge, Except.ok.injEq] at hok
      subst hok; rfl
    | cons s rest => simp [flattenMerge] at hok
  | succ f ih =>
    intro q seen out hok hsf
    cases q with
    | nil =>
      simp only [flattenMerge, Except.ok.injEq] at hok
      subst hok; rfl
    | cons s rest =>
      cases s with
      | spread n => simpa [isSpread] using hsf _ (List.mem_cons_self _ _)
      | field al nm args ss =>
        simp only [flattenMerge] at hok
        exact ih rest (mergeStep seen (.field al nm args ss)) out hok
          fun s hmem => hsf s (List.mem_cons_of_mem _ hmem)
      | inlineFrag nid tc ss =>
        simp only [flattenMerge] at hok
        exact ih rest (mergeStep seen (.inlineFrag nid tc ss)) out hok
          fun s hmem => hsf s (List.mem_cons_of_mem _ hmem)

/-- With enough fuel, merging a spread-free sibling list succeeds and
produces the fold of `mergeStep`. -/
theorem flattenMerge_spreadFree_ok (cfg : TransCfg) :
    ∀ (q : List GqlSel) (fuel : Nat) (seen : List (SelKey × GqlSel)),
    (∀ s ∈ q, isSpread s = false) → q.length ≤ fuel →
    flattenMerge cfg fuel q seen = .ok (q.foldl mergeStep seen) := by
  intro q
  induction q with
  | nil =>
    intro fuel seen _ _
    cases fuel <;> rfl
  | cons s rest ih =>
    intro fuel seen hsf hlen
    cases fuel with
    | zero => simp at hlen
    | succ f =>
      have hlen2 : rest.length ≤ f := by
        simpa [Nat.succ_le_succ_iff] using hlen
      cases s with
      | spread n => simpa [isSpread] using hsf _ (List.mem_cons_self _ _)
      | field al nm args ss =>
        exact ih f (mergeStep seen _) (fun s hmem => hsf s (List.mem_cons_of_mem _ hmem)) hlen2
      | inlineFrag nid tc ss =>
        exact ih f (mergeStep seen _) (fun s hmem => hsf s (List.mem_cons_of_mem _ hmem)) hlen2

/-- Stepping the merge loop over a spread-free prefix of the queue. -/
theorem flattenMerge_prefix (cfg : TransCfg) :
    ∀ (q₁ : List GqlSel) (fuel : Nat) (qr : List GqlSel)
      (seen out : List (SelKey × GqlSel)),
    flattenMerge cfg fuel (q₁ ++ qr) seen = .ok out →
    (∀ s ∈ q₁, isSpread s = false) →
    ∃ fuel₂, flattenMerge cfg fuel₂ qr (q₁.foldl mergeStep seen) = .ok out := by
  intro q₁
  induction q₁ with
  | nil => intro fuel qr seen out hok _; exact ⟨fuel, hok⟩
  | cons s rest ih =>
    intro fuel qr seen out hok hsf
    cases fuel with
    | zero => simp [flattenMerge] at hok
    | succ f =>
      cases s with
      | spread n => simpa [isSpread] using hsf _ (List.mem_cons_self _ _)
      | field al nm args ss =>
        simp only [List.cons_append, flattenMerge] at hok
        exact ih f qr _ out hok fun s hmem => hsf s (List.mem_cons_of_mem _ hmem)
      | inlineFrag nid tc ss =>
        simp only [List.cons_append, flattenMerge] at hok
        exact ih f qr _ out hok fun s hmem => hsf s (List.mem_cons_of_mem _ hmem)

/-- What the merge fold accumulates under one key: iterated `combine_sels`
over the same-key selections, in sibling order. -/
theorem foldl_mergeStep_lookup :
    ∀ (q : List GqlSel) (seen : List (SelKey × GqlSel)) (k : SelKey),
    dlookup k (q.foldl mergeStep seen)
      = mergeGroup (dlookup k seen) (q.filter fun s => selKey s == k) := by
  intro q
  induction q with
  | nil =>
    intro seen k
    rw [List.foldl_nil]
    cases hl : dlookup k seen <;> rfl
  | cons s rest ih =>
    intro seen k
    by_cases hk : selKey s = k
    · rw [List.foldl_cons, ih]
      have hfil : (s :: rest).filter (fun s => selKey s == k)
          = s :: rest.filter (fun s => selKey s == k) := by
        simp [List.filter_cons, hk]
      rw [hfil]
      cases hl : dlookup k seen with
      | none =>
        have : dlookup k (mergeStep seen s) = some s := by
          rw [mergeStep, hk, hl]
          exact dlookup_dinsert_self k s seen
        rw [this]
        rfl
      | some e =>
        have : dlookup k (mergeStep seen s) = some (combineSels e s) := by
          rw [mergeStep, hk, hl]
          exact dlookup_dinsert_self k (combineSels e s) seen
        rw [this]
        rfl
    · rw [List.foldl_cons, ih]
      have hfil : (s :: rest).filter (fun s => selKey s == k)
          = rest.filter (fun s => selKey s == k) := by
        simp [List.filter_cons, hk]
      rw [hfil]
      have : dlookup k (mergeStep seen s) = dlookup k seen := by
        rw [mergeStep]
        exact dlookup_dinsert_ne _ _ fun hh => hk hh.symm
      rw [this]

/-- When all keys are fresh and pairwise distinct, the merge fold appends the
selections in order: the resulting key order is the queue order. -/
theorem foldl_mergeStep_keys :
    ∀ (q : List GqlSel) (seen : List (SelKey × GqlSel)),
    (∀ s ∈ q, dlookup (selKey s) seen = none) → (q.map selKey).Nodup →
    (q.foldl mergeStep seen).map Prod.fst = seen.map Prod.fst ++ q.map selKey := by
  intro q
  induction q with
  | nil => intro seen _ _; simp
  | cons s rest ih =>
    intro seen hfresh hnd
    simp only [List.map_cons, List.nodup_cons] at hnd
    have hstep : (mergeStep seen s).map Prod.fst = seen.map Prod.fst ++ [selKey s] := by
      rw [mergeStep, hfresh s (List.mem_cons_self _ _)]
      exact dinsert_keys_of_fresh _ _ _ (hfresh s (List.mem_cons_self _ _))
    have hfresh2 : ∀ s₂ ∈ rest, dlookup (selKey s₂) (mergeStep seen s) = none := by
      intro s₂ hmem
      rw [mergeStep]
      rw [dlookup_dinsert_ne]
      · exact hfresh s₂ (List.mem_cons_of_mem _ hmem)
      · intro hh
        exact hnd.1 (hh ▸ List.mem_map_of_mem selKey hmem)
    rw [List.foldl_cons, ih (mergeStep seen s) hfresh2 hnd.2, hstep]
    simp

/-- Iterated `combine_sels` over a nonempty field group: the result is a
field with the group head's key, arguments concatenated across the group in
order, and (for a group of at least two) a selection set holding the
concatenation of all the group members' selections. -/
theorem mergeGroup_some_field :
    ∀ (grp : List GqlSel) (e : GqlSel),
    isFieldSel e = true → (∀ s ∈ grp, isFieldSel s = true) →
    ∃ e₂, mergeGroup (some e) grp = some e₂ ∧ isFieldSel e₂ = true ∧
      argsOf e₂ = argsOf e ++ (grp.map argsOf).flatten ∧
      selKey e₂ = selKey e ∧
      (grp = [] → e₂ = e) ∧
      (grp ≠ [] →
        selSetOf e₂ = some (ssList (selSetOf e)
          ++ (grp.map fun s => ssList (selSetOf s)).flatten)) := by
  intro grp
  induction grp with
  | nil =>
    intro e hf _
    exact ⟨e, rfl, hf, by simp, rfl, fun _ => rfl, fun h => absurd rfl h⟩
  | cons s rest ih =>
    intro e hf hall
    have hf2 : isFieldSel (combineSels e s) = true := by
      rw [isFieldSel_combineSels]; exact hf
    obtain ⟨e₂, h1, h2, h3, hsk, h4, h5⟩ :=
      ih (combineSels e s) hf2 fun x hx => hall x (List.mem_cons_of_mem _ hx)
    obtain ⟨al, nm, args, ss, he⟩ : ∃ al nm args ss, e = GqlSel.field al nm args ss := by
      cases e with
      | field al nm args ss => exact ⟨al, nm, args, ss, rfl⟩
      | inlineFrag nid tc ss => simp [isFieldSel] at hf
      | spread n => simp [isFieldSel] at hf
    subst he
    refine ⟨e₂, h1, h2, ?_, ?_, ?_, ?_⟩
    · rw [h3]
      simp [combineSels, argsOf, List.flatten_cons, List.append_assoc]
    · rw [hsk, selKey_combineSels]
    · intro h; exact absurd h (List.cons_ne_nil _ _)
    · intro _
      cases rest with
      | nil =>
        rw [h4 rfl]
        simp [combineSels, selSetOf, ssList, List.flatten_cons]
      | cons r₂ rest₂ =>
        rw [h5 (List.cons_ne_nil _ _)]
        simp [combineSels, selSetOf, ssList, List.flatten_cons, List.append_assoc]

/-- Field response keys extracted from distinct merge keys are distinct. -/
theorem nodup_filterMap_selKeyStr (ks : List SelKey) (h : ks.Nodup) :
    (ks.filterMap selKeyStr).Nodup := by
  induction ks with
  | nil => simp
  | cons k rest ih =>
    simp only [List.nodup_cons] at h
    cases k with
    | fragKey nid => simpa [List.filterMap_cons, selKeyStr] using ih h.2
    | fieldKey str =>
      simp only [List.filterMap_cons, selKeyStr, List.nodup_cons]
      refine ⟨?_, ih h.2⟩
      intro hmem
      rcases List.mem_filterMap.mp hmem with ⟨k₂, hk₂, hstr⟩
      cases k₂ with
      | fragKey nid => simp [selKeyStr] at hstr
      | fieldKey str₂ =>
        simp only [selKeyStr, Option.some.injEq] at hstr
        subst hstr
        exact h.1 hk₂

/-- Translating the merged entries in dict order yields one `FieldNode` per
field entry (and one `InlineFragmentNode` per fragment entry), so the
translated field response keys are exactly the field-key strings of the
merged dict, in order. -/
theorem childrenLoop_fieldRespKeys (cfg : TransCfg) (fuel : Nat) :
    ∀ (merged : List (SelKey × GqlSel)) (path : List String) (cs : List TNode),
    (∀ p ∈ merged, p.1 = selKey p.2 ∧ isSpread p.2 = false) →
    childrenLoop (fromNode cfg fuel) merged path = .ok cs →
    fieldRespKeys cs = merged.filterMap fun p => selKeyStr p.1 := by
  intro merged
  induction merged with
  | nil =>
    intro path cs _ hok
    simp only [childrenLoop, Except.ok.injEq] at hok
    subst hok
    rfl
  | cons p rest ih =>
    intro path cs hinv hok
    obtain ⟨k, sel⟩ := p
    obtain ⟨hk, hns⟩ := hinv (k, sel) (List.mem_cons_self _ _)
    have hinv2 : ∀ p ∈ rest, p.1 = selKey p.2 ∧ isSpread p.2 = false :=
      fun p hp => hinv p (List.mem_cons_of_mem _ hp)
    cases fuel with
    | zero => simp [childrenLoop, fromNode] at hok
    | succ f =>
      cases sel with
      | spread n => simp [isSpread] at hns
      | field al nm args ss =>
        simp only [childrenLoop, fromNode] at hok
        cases hc : childrenFromNode (fromNode cfg f) cfg f ss (path ++ [nm]) with
        | error e => rw [hc] at hok; simp at hok
        | ok cso =>
          rw [hc] at hok
          cases hr : childrenLoop (fromNode cfg (f + 1)) rest path with
          | error e => rw [hr] at hok; simp at hok
          | ok ms =>
            rw [hr] at hok
            simp only [Except.ok.injEq] at hok
            subst hok
            have hk2 : k = selKey (GqlSel.field al nm args ss) := hk
            subst hk2
            have hihl := ih path ms hinv2 hr
            simp only [fieldRespKeys] at hihl
            simp only [List.cons_append, List.nil_append, fieldRespKeys,
              List.filterMap_cons, selKey, selKeyStr]
            exact congrArg (List.cons _) hihl
      | inlineFrag nid tc ss =>
        simp only [childrenLoop, fromNode] at hok
        cases hc : childrenFromNode (fromNode cfg f) cfg f ss (path ++ [tc]) with
        | error e => rw [hc] at hok; simp at hok
        | ok cso =>
          rw [hc] at hok
          cases hr : childrenLoop (fromNode cfg (f + 1)) rest path with
          | error e => rw [hr] at hok; simp at hok
          | ok ms =>
            rw [hr] at hok
            simp only [Except.ok.injEq] at hok
            subst hok
            have hk2 : k = selKey (GqlSel.inlineFrag nid tc ss) := hk
            subst hk2
            have hihl := ih path ms hinv2 hr
            simp only [fieldRespKeys] at hihl
            simp only [List.cons_append, List.nil_append, fieldRespKeys,
              List.filterMap_cons, selKey, selKeyStr]
            exact hihl

/-- C1 counterexample: selection merging is *not* applied to the operation's
direct children.  `from_operation_node` translates the top-level selections
one by one without the `has_seen` merge loop, so the query
`{ a a }` translates to an operation with two sibling `FieldNode`s that share
the response key `a`, contradicting the claim that every translated sibling
list has exactly one node per response key. -/
theorem c1_top_level_duplicates_survive :
    (translate (fun s => s) 4
        [GqlDef.op none .query
          [GqlSel.field none "a" [] none, GqlSel.field none "a" [] none]]).toOption.map
        (fun ops => ops.map fun op => fieldRespKeys op.children)
      = some [["a", "a"]] ∧
    ¬ (["a", "a"] : List String).Nodup := by
  exact ⟨rfl, by decide⟩

/-- C1 (amended): *within* `children_from_node` the claim holds.  Whenever
`children_from_node` produces a sibling list, (i) the translated `FieldNode`
response keys are pairwise distinct; (ii) for a spread-free selection list
with enough fuel, the merge loop is the fold of the dict-update step, and
each key holds the iterated `combine_sels` of the same-key selections in
sibling order; (iii) iterated `combine_sels` over a field group concatenates
the arguments in order, and (for two or more nodes) the combined node's
selection set is the concatenation of the group members' selections. -/
theorem c1_sibling_merging (cfg : TransCfg) (fuel mfuel : Nat)
    (sels : List GqlSel) (path : List String) (cs : List TNode)
    (hok : childrenFromNode (fromNode cfg fuel) cfg mfuel (some sels) path
      = .ok (some cs)) :
    (fieldRespKeys cs).Nodup ∧
    ((∀ s ∈ sels, isSpread s = false) → sels.length ≤ mfuel →
      flattenMerge cfg mfuel sels [] = .ok (sels.foldl mergeStep []) ∧
      ∀ k, dlookup k (sels.foldl mergeStep [])
          = mergeGroup none (sels.filter fun s => selKey s == k)) ∧
    (∀ (grp : List GqlSel) (e₂ : GqlSel),
      (∀ s ∈ grp, isFieldSel s = true) → mergeGroup none grp = some e₂ →
      argsOf e₂ = (grp.map argsOf).flatten ∧
      (2 ≤ grp.length →
        selSetOf e₂ = some ((grp.map fun s => ssList (selSetOf s)).flatten))) := by
  refine ⟨?_, ?_, ?_⟩
  · simp only [childrenFromNode] at hok
    cases hm : flattenMerge cfg mfuel sels [] with
    | error e => rw [hm] at hok; simp at hok
    | ok merged =>
      rw [hm] at hok
      dsimp only at hok
      cases hcl : childrenLoop (fromNode cfg fuel) merged path with
      | error e => rw [hcl] at hok; simp at hok
      | ok cs₂ =>
        rw [hcl] at hok
        simp only [Except.ok.injEq, Option.some.injEq] at hok
        subst hok
        have hinv := flattenMerge_inv cfg mfuel sels [] merged hm (by simp)
          (by intro p hp; simp at hp)
        rw [childrenLoop_fieldRespKeys cfg fuel merged path cs₂ hinv.2 hcl]
        have : merged.filterMap (fun p => selKeyStr p.1)
            = (merged.map Prod.fst).filterMap selKeyStr := by
          rw [List.filterMap_map]
          rfl
        rw [this]
        exact nodup_filterMap_selKeyStr _ hinv.1
  · intro hsf hfuel
    refine ⟨flattenMerge_spreadFree_ok cfg sels mfuel [] hsf hfuel, ?_⟩
    intro k
    rw [foldl_mergeStep_lookup sels [] k]
    rfl
  · intro grp e₂ hfields hmg
    cases grp with
    | nil => simp [mergeGroup] at hmg
    | cons s rest =>
      have hmg2 : mergeGroup (some s) rest = some e₂ := hmg
      obtain ⟨e₃, h1, h2, h3, hsk, h4, h5⟩ := mergeGroup_some_field rest s
        (hfields s (List.mem_cons_self _ _))
        (fun x hx => hfields x (List.mem_cons_of_mem _ hx))
      rw [hmg2] at h1
      obtain rfl : e₂ = e₃ := (Option.some.injEq _ _).mp h1.symm |>.symm
      constructor
      · rw [h3]
        simp [List.flatten_cons]
      · intro hlen
        have hrne : rest ≠ [] := by
          intro hh
          subst hh
          simp at hlen
        rw [h5 hrne]
        cases hss : selSetOf s with
        | none => simp [ssList, hss, List.flatten_cons]
        | some l => simp [ssList, hss, List.flatten_cons]

/-- Witness for `c1_sibling_merging`: translating the body `{ a(x:1){p}
a(y:2){q} }` merges the two `a` selections into one `FieldNode` (arguments
`x`,`y` concatenated, children `p`,`q` concatenated) whose sibling list has
the single response key `a`. -/
theorem c1_sibling_merging_witness :
    (fieldRespKeys
      [TNode.field "a" none "a"
        [⟨"x", "x", GqlVal.intV 1⟩, ⟨"y", "y", GqlVal.intV 2⟩]
        (some [TNode.field "p" none "p" [] none,
               TNode.field "q" none "q" [] none])]).Nodup :=
  (c1_sibling_merging ⟨[], fun s => s⟩ 4 4
    [GqlSel.field none "a" [("x", GqlVal.intV 1)]
       (some [GqlSel.field none "p" [] none]),
     GqlSel.field none "a" [("y", GqlVal.intV 2)]
       (some [GqlSel.field none "q" [] none])]
    [] _ rfl).1

/-- C9 counterexample: a fragment spread is *not* spliced at the spread
site.  With `fragment F on T { a }`, the selection set `{ ...F b }`
translates to children whose response keys come out as `[b, a]`: the merge
loop re-appends the fragment's selections at the *end* of the sibling
worklist (`selection_q.extend`), so `a` lands after `b` instead of occupying
the position of the spread. -/
theorem c9_spread_not_spliced_in_place :
    (fromNode ⟨[("F", [GqlSel.field none "a" [] none])], fun s => s⟩ 4
        (GqlSel.field none "parent" []
          (some [GqlSel.spread "F", GqlSel.field none "b" [] none])) []).toOption.map
        (fun ns => ns.map fun n => fieldRespKeys (childrenOfT n))
      = some [["b", "a"]] ∧
    ["b", "a"] ≠ ["a", "b"] := by
  exact ⟨rfl, by decide⟩

/-- C9 (amended): during selection-set flattening a fragment spread is
expanded by appending the referenced fragment's selections at the *end* of
the sibling worklist, so when all response keys are distinct the merged
sibling order is: the selections before the spread, then the selections
after it, and only then the fragment's own selections. -/
theorem c9_spread_appends_at_end (cfg : TransCfg) (fuel : Nat)
    (l₁ l₂ fsels : List GqlSel) (F : String)
    (out : List (SelKey × GqlSel))
    (hfrag : dlookup F cfg.frags = some fsels)
    (hsf : ∀ s ∈ l₁ ++ l₂ ++ fsels, isSpread s = false)
    (hnd : ((l₁ ++ l₂ ++ fsels).map selKey).Nodup)
    (hok : flattenMerge cfg fuel (l₁ ++ GqlSel.spread F :: l₂) [] = .ok out) :
    out.map Prod.fst = (l₁ ++ l₂ ++ fsels).map selKey := by
  have hsf₁ : ∀ s ∈ l₁, isSpread s = false := by
    intro s hmem
    exact hsf s (by simp [hmem])
  obtain ⟨fuel₂, hok₂⟩ := flattenMerge_prefix cfg l₁ fuel (GqlSel.spread F :: l₂)
    [] out hok hsf₁
  cases fuel₂ with
  | zero => simp [flattenMerge] at hok₂
  | succ f₂ =>
    simp only [flattenMerge, hfrag] at hok₂
    have hsf₂ : ∀ s ∈ l₂ ++ fsels, isSpread s = false := by
      intro s hmem
      rcases List.mem_append.mp hmem with h | h
      · exact hsf s (by simp [h])
      · exact hsf s (by simp [h])
    have hout : out = (l₂ ++ fsels).foldl mergeStep (l₁.foldl mergeStep []) :=
      flattenMerge_ok_spreadFree cfg f₂ (l₂ ++ fsels) (l₁.foldl mergeStep [])
        out hok₂ hsf₂
    have hfold : out = (l₁ ++ (l₂ ++ fsels)).foldl mergeStep [] := by
      rw [hout]
      simp [List.foldl_append]
    have hnd₂ : ((l₁ ++ (l₂ ++ fsels)).map selKey).Nodup := by
      simpa [List.append_assoc] using hnd
    have hfresh : ∀ s ∈ l₁ ++ (l₂ ++ fsels),
        dlookup (selKey s) ([] : List (SelKey × GqlSel)) = none := by
      intro s _; rfl
    rw [hfold, foldl_mergeStep_keys (l₁ ++ (l₂ ++ fsels)) [] hfresh hnd₂]
    simp [List.append_assoc]

/-- Witness for `c9_spread_appends_at_end`: `{ x ...F b }` with
`fragment F { a }` merges to the key order `[x, b, a]`. -/
theorem c9_spread_appends_at_end_witness :
    ([(SelKey.fieldKey "x", GqlSel.field none "x" [] none),
      (SelKey.fieldKey "b", GqlSel.field none "b" [] none),
      (SelKey.fieldKey "a", GqlSel.field none "a" [] none)].map Prod.fst)
      = ([GqlSel.field none "x" [] none] ++ [GqlSel.field none "b" [] none]
          ++ [GqlSel.field none "a" [] none]).map selKey :=
  c9_spread_appends_at_end ⟨[("F", [GqlSel.field none "a" [] none])], fun s => s⟩ 4
    [GqlSel.field none "x" [] none] [GqlSel.field none "b" [] none]
    [GqlSel.field none "a" [] none] "F" _ rfl (by decide) (by decide) rfl

/-! ### Resolver lemmas -/

/-- The sort-and-null-check loop stops at the first violating entry - a null
value for a non-null-declared field with a nonempty path - recording exactly
one error, at the full path of that field, and collapsing the node. -/
theorem sortPhase_first_violation (nn : String → String → Bool) (tname : String)
    (path : List String) :
    ∀ (pre : List (String × String)) (k dn : String)
      (rest : List (String × String)) (finalD : List (String × RVal)),
    path.isEmpty = false →
    (∀ p ∈ pre,
      (isNullR ((dlookup p.1 finalD).getD .null) && nn tname p.2) = false) →
    isNullR ((dlookup k finalD).getD .null) = true →
    nn tname dn = true →
    sortPhase nn tname path (pre ++ (k, dn) :: rest) finalD
      = ([GErr.mk (nonNullMsg (path ++ [k])) (path ++ [k]) none], none) := by
  intro pre
  induction pre with
  | nil =>
    intro k dn rest finalD hpath _ hnull hnn
    simp [sortPhase, hnull, hnn, hpath]
  | cons p pre₂ ih =>
    intro k dn rest finalD hpath hpre hnull hnn
    obtain ⟨ntr, dn₂⟩ := p
    have hhd := hpre (ntr, dn₂) (List.mem_cons_self _ _)
    have hcond : (isNullR ((dlookup ntr finalD).getD .null) && !path.isEmpty
        && nn tname dn₂) = false := by
      cases hn : isNullR ((dlookup ntr finalD).getD .null) with
      | false => simp [hn]
      | true =>
        simp only [hn, Bool.true_and] at hhd ⊢
        simp [hhd]
    simp only [List.cons_append, sortPhase, hcond, Bool.false_eq_true, if_false]
    simp only [List.append_eq]
    rw [ih k dn rest finalD hpath
      (fun p hp => hpre p (List.mem_cons_of_mem _ hp)) hnull hnn]

/-- When no entry violates the check, the loop keeps every declared key with
its value - nulls included - in declaration order, and records no error. -/
theorem sortPhase_no_violation (nn : String → String → Bool) (tname : String)
    (path : List String) :
    ∀ (entries : List (String × String)) (finalD : List (String × RVal)),
    (∀ p ∈ entries,
      (isNullR ((dlookup p.1 finalD).getD .null) && !path.isEmpty
        && nn tname p.2) = false) →
    sortPhase nn tname path entries finalD
      = ([], some (entries.map fun p => (p.1, (dlookup p.1 finalD).getD .null))) := by
  intro entries
  induction entries with
  | nil => intro finalD _; rfl
  | cons p rest ih =>
    intro finalD hpre
    obtain ⟨ntr, dn⟩ := p
    have hhd := hpre (ntr, dn) (List.mem_cons_self _ _)
    simp only [sortPhase, hhd, Bool.false_eq_true, if_false]
    rw [ih finalD fun p hp => hpre p (List.mem_cons_of_mem _ hp)]
    simp [List.map_cons]

/-- `if path:` - with the empty path the null check is skipped entirely:
every entry is kept (nulls included) and no error is recorded, whatever the
non-nullability map says. -/
theorem sortPhase_root (nn : String → String → Bool) (tname : String)
    (entries : List (String × String)) (finalD : List (String × RVal)) :
    sortPhase nn tname [] entries finalD
      = ([], some (entries.map fun p => (p.1, (dlookup p.1 finalD).getD .null))) := by
  apply sortPhase_no_violation
  intro p _
  simp

/-- The sort loop reads `final_d` only through keyed lookup, so any
reordering of `final_d` - in particular any completion order of the
gathered awaitables - yields the same output. -/
theorem sortPhase_lookup_invariance (nn : String → String → Bool)
    (tname : String) (path : List String) :
    ∀ (entries : List (String × String)) (finalD finalD₂ : List (String × RVal)),
    (∀ k, dlookup k finalD = dlookup k finalD₂) →
    sortPhase nn tname path entries finalD
      = sortPhase nn tname path entries finalD₂ := by
  intro entries
  induction entries with
  | nil => intro _ _ _; rfl
  | cons p rest ih =>
    intro finalD finalD₂ hlk
    obtain ⟨ntr, dn⟩ := p
    simp only [sortPhase, hlk ntr]
    rw [ih finalD finalD₂ hlk]

/-- When the sort loop completes, the result keys are the declared keys in
order. -/
theorem sortPhase_keys (nn : String → String → Bool) (tname : String)
    (path : List String) :
    ∀ (entries : List (String × String)) (finalD : List (String × RVal))
      (errs : List GErr) (d : List (String × RVal)),
    sortPhase nn tname path entries finalD = (errs, some d) →
    d.map Prod.fst = entries.map Prod.fst := by
  intro entries
  induction entries with
  | nil =>
    intro finalD errs d h
    simp only [sortPhase, Prod.mk.injEq, Option.some.injEq] at h
    rw [← h.2]
    rfl
  | cons p rest ih =>
    intro finalD errs d h
    obtain ⟨ntr, dn⟩ := p
    simp only [sortPhase] at h
    by_cases hc : (isNullR ((dlookup ntr finalD).getD .null) && !path.isEmpty
        && nn tname dn) = true
    · rw [if_pos hc] at h
      simp at h
    · rw [if_neg hc] at h
      cases hrec : sortPhase nn tname path rest finalD with
      | mk errs₂ res =>
        rw [hrec] at h
        cases res with
        | none => simp at h
        | some d₂ =>
          simp only [Prod.mk.injEq, Option.some.injEq] at h
          rw [← h.2]
          simp only [List.map_cons]
          rw [ih finalD errs₂ d₂ hrec]

/-- The gather loop writes `final_d` as a fold of keyed inserts (value
`None` for captured exceptions). -/
theorem gatherLoop_dict (path : List String) :
    ∀ (results : List (String × Except PExc RVal))
      (finalD : List (String × RVal)),
    (gatherLoop path results finalD).2 = gatherFold results finalD := by
  intro results
  induction results with
  | nil => intro finalD; rfl
  | cons p rest ih =>
    intro finalD
    obtain ⟨name, r⟩ := p
    cases r with
    | ok v => exact ih (dinsert name v finalD)
    | error e =>
      cases e with
      | std msg => exact ih (dinsert name RVal.null finalD)
      | gqlErr message epath => exact ih (dinsert name RVal.null finalD)

/-- The errors the gather loop appends: one per captured exception, a raised
`GQLError` as-is and anything else as `Internal Server Error` at
`(*path, name)`, in `proms_map` order. -/
theorem gatherLoop_errs (path : List String) :
    ∀ (results : List (String × Except PExc RVal))
      (finalD : List (String × RVal)),
    (gatherLoop path results finalD).1 = results.filterMap (gatherErr path) := by
  intro results
  induction results with
  | nil => intro finalD; rfl
  | cons p rest ih =>
    intro finalD
    obtain ⟨name, r⟩ := p
    cases r with
    | ok v =>
      have h := ih (dinsert name v finalD)
      show ([] : List GErr) ++ (gatherLoop path rest (dinsert name v finalD)).1
        = List.filterMap (gatherErr path) rest
      simpa using h
    | error e =>
      cases e with
      | std msg =>
        have h := ih (dinsert name RVal.null finalD)
        show [GErr.mk "Internal Server Error" (path ++ [name]) (some (.std msg))]
            ++ (gatherLoop path rest (dinsert name RVal.null finalD)).1
          = GErr.mk "Internal Server Error" (path ++ [name]) (some (.std msg))
            :: List.filterMap (gatherErr path) rest
        simp [h]
      | gqlErr message epath =>
        have h := ih (dinsert name RVal.null finalD)
        show [GErr.mk message epath none]
            ++ (gatherLoop path rest (dinsert name RVal.null finalD)).1
          = GErr.mk message epath none :: List.filterMap (gatherErr path) rest
        simp [h]

/-- Keys never written by the gather fold keep their prior binding. -/
theorem dlookup_gatherFold_not_mem :
    ∀ (results : List (String × Except PExc RVal))
      (finalD : List (String × RVal)) (k : String),
    k ∉ results.map Prod.fst →
    dlookup k (gatherFold results finalD) = dlookup k finalD := by
  intro results
  induction results with
  | nil => intro finalD k _; rfl
  | cons p rest ih =>
    intro finalD k hk
    simp only [List.map_cons, List.mem_cons] at hk
    push_neg at hk
    rw [show gatherFold (p :: rest) finalD
        = gatherFold rest (dinsert p.1 (gatherVal p.2) finalD) from rfl]
    rw [ih _ k hk.2]
    exact dlookup_dinsert_ne _ _ hk.1

/-- Two `final_d`s that agree outside one key still agree outside that key
after any sequence of gather writes. -/
theorem dlookup_gatherFold_congr_except (fk : String) :
    ∀ (results : List (String × Except PExc RVal))
      (d₁ d₂ : List (String × RVal)),
    (∀ k, k ≠ fk → dlookup k d₁ = dlookup k d₂) →
    ∀ k, k ≠ fk →
      dlookup k (gatherFold results d₁) = dlookup k (gatherFold results d₂) := by
  intro results
  induction results with
  | nil => intro d₁ d₂ h k hk; exact h k hk
  | cons p rest ih =>
    intro d₁ d₂ h k hk
    rw [show gatherFold (p :: rest) d₁
        = gatherFold rest (dinsert p.1 (gatherVal p.2) d₁) from rfl]
    rw [show gatherFold (p :: rest) d₂
        = gatherFold rest (dinsert p.1 (gatherVal p.2) d₂) from rfl]
    refine ih _ _ ?_ k hk
    intro k₂ hk₂
    by_cases hkp : k₂ = p.1
    · subst hkp
      rw [dlookup_dinsert_self, dlookup_dinsert_self]
    · rw [dlookup_dinsert_ne _ _ hkp, dlookup_dinsert_ne _ _ hkp]
      exact h k₂ hk₂

/-- `gatherFold` over an appended worklist. -/
theorem gatherFold_append (a b : List (String × Except PExc RVal))
    (d : List (String × RVal)) :
    gatherFold (a ++ b) d = gatherFold b (gatherFold a d) := by
  simp [gatherFold, List.foldl_append]

/-- Unfolding `resolve_node` on an object model: classification, gather,
property splice-in, then the sort-and-null-check phase, whose outcome
determines the node value (`None` on collapse). -/
theorem resolveNode_obj (nn : String → String → Bool) (f : Nat) (cs : List TNode)
    (o : GObj) (path : List String) (st : CFrame)
    (derrs : List GErr) (results : List (String × Except PExc RVal))
    (gerrs serrs : List GErr) (finalD₁ : List (String × RVal))
    (res : Option (List (String × RVal)))
    (hcl : classifyGo o f cs ⟨[], [], [], []⟩ = .ok st)
    (hrp : runProms
      (fun p src => runProm (fun n v p₂ => resolveNode nn f (childrenOfT n) v p₂) p src)
      path st.proms = (derrs, results))
    (hgl : gatherLoop path results st.finalD = (gerrs, finalD₁))
    (hsp : sortPhase nn o.typeName path st.ntr2dn
      (includeGo (fun nm => dumpFVal f ((dlookup nm o.fields).getD .fnull))
        st.f2i finalD₁) = (serrs, res)) :
    resolveNode nn (f + 1) cs (.obj o) path
      = (derrs ++ gerrs ++ serrs,
         .ok (match res with | none => RVal.null | some d => RVal.dict d)) := by
  show (match classifyGo o f cs ⟨[], [], [], []⟩ with
        | .error e => (([] : List GErr), Except.error e)
        | .ok st₂ =>
          resolveFrame (fun n v p₂ => resolveNode nn f (childrenOfT n) v p₂)
            nn f o path st₂) = _
  rw [hcl]
  show resolveFrame (fun n v p₂ => resolveNode nn f (childrenOfT n) v p₂)
      nn f o path st = _
  simp only [resolveFrame]
  rw [hrp]
  dsimp only
  rw [hgl]
  dsimp only
  simp only [hsp]
  cases res <;> rfl

/-- The `name_to_return_to_display_name` dict collects the response keys in
worklist order (matching inline fragments spliced at the front), provided
those keys are fresh and pairwise distinct. -/
theorem classifyGo_ntr2dn_keys (o : GObj) :
    ∀ (fuel : Nat) (q : List TNode) (st st₂ : CFrame),
    classifyGo o fuel q st = .ok st₂ →
    (rawRespKeys o.typeName fuel q).Nodup →
    (∀ k ∈ rawRespKeys o.typeName fuel q, dlookup k st.ntr2dn = none) →
    st₂.ntr2dn.map Prod.fst
      = st.ntr2dn.map Prod.fst ++ rawRespKeys o.typeName fuel q := by
  intro fuel
  induction fuel with
  | zero =>
    intro q st st₂ hok _ _
    cases q with
    | nil =>
      simp only [classifyGo, Except.ok.injEq] at hok
      subst hok
      simp [rawRespKeys]
    | cons child rest => simp [classifyGo] at hok
  | succ f ih =>
    intro q st st₂ hok hnd hfresh
    cases q with
    | nil =>
      simp only [classifyGo, Except.ok.injEq] at hok
      subst hok
      simp [rawRespKeys]
    | cons child rest =>
      cases child with
      | inlineFrag tc cso =>
        by_cases htc : tc = o.typeName
        · simp only [classifyGo, if_pos htc] at hok
          simp only [rawRespKeys, if_pos htc] at hnd hfresh ⊢
          exact ih _ st st₂ hok hnd hfresh
        · simp only [classifyGo, if_neg htc] at hok
          simp only [rawRespKeys, if_neg htc] at hnd hfresh ⊢
          exact ih _ st st₂ hok hnd hfresh
      | field nm al dn args cso =>
        simp only [classifyGo] at hok
        simp only [rawRespKeys, List.nodup_cons] at hnd hfresh ⊢
        have hfhd : dlookup (pyOrStr al dn) st.ntr2dn = none :=
          hfresh _ (List.mem_cons_self _ _)
        have hkeys : (dinsert (pyOrStr al dn) dn st.ntr2dn).map Prod.fst
            = st.ntr2dn.map Prod.fst ++ [pyOrStr al dn] :=
          dinsert_keys_of_fresh _ _ _ hfhd
        have hfresh₂ : ∀ k ∈ rawRespKeys o.typeName f rest,
            dlookup k (dinsert (pyOrStr al dn) dn st.ntr2dn) = none := by
          intro k hk
          rw [dlookup_dinsert_ne _ _ fun hh => hnd.1 (by rw [← hh]; exact hk)]
          exact hfresh k (List.mem_cons_of_mem _ hk)
        have hfin : ∀ st₃ : CFrame,
            st₃.ntr2dn = dinsert (pyOrStr al dn) dn st.ntr2dn →
            classifyGo o f rest st₃ = .ok st₂ →
            st₂.ntr2dn.map Prod.fst
              = st.ntr2dn.map Prod.fst ++ (pyOrStr al dn :: rawRespKeys o.typeName f rest) := by
          intro st₃ hst₃ hok₂
          have hfr₃ : ∀ k ∈ rawRespKeys o.typeName f rest,
              dlookup k st₃.ntr2dn = none := by
            rw [hst₃]; exact hfresh₂
          rw [ih rest st₃ st₂ hok₂ hnd.2 hfr₃, hst₃, hkeys]
          simp
        split at hok
        · exact hfin _ rfl hok
        · split at hok
          · split at hok
            · exact hfin _ rfl hok
            · simp at hok
          · split at hok
            · exact hfin _ rfl hok
            · exact hfin _ rfl hok

/-- Classification reads the model's pydantic fields only through keyed
lookup, so it cannot observe the field declaration order. -/
theorem classifyGo_fields_congr (o o₂ : GObj)
    (htn : o.typeName = o₂.typeName)
    (hms : o.methods = o₂.methods)
    (hfl : ∀ nm, dlookup nm o.fields = dlookup nm o₂.fields) :
    ∀ (fuel : Nat) (q : List TNode) (st : CFrame),
    classifyGo o fuel q st = classifyGo o₂ fuel q st := by
  intro fuel
  induction fuel with
  | zero =>
    intro q st
    cases q with
    | nil => rfl
    | cons child rest => rfl
  | succ f ih =>
    intro q st
    cases q with
    | nil => rfl
    | cons child rest =>
      cases child with
      | inlineFrag tc cso =>
        simp only [classifyGo, htn]
        by_cases htc : tc = o₂.typeName
        · rw [if_pos htc, if_pos htc, ih]
        · rw [if_neg htc, if_neg htc, ih]
      | field nm al dn args cso =>
        simp only [classifyGo, htn, hms]
        have hdm : dmem nm o.fields = dmem nm o₂.fields := by
          simp [dmem, hfl nm]
        rw [hdm, hfl nm]
        by_cases ht : nm = "__typename"
        · rw [if_pos ht, if_pos ht, ih]
        · rw [if_neg ht, if_neg ht]
          by_cases hm : dmem nm o₂.fields = false
          · rw [if_pos hm, if_pos hm]
            cases dlookup nm o₂.methods with
            | none => rfl
            | some m => exact ih _ _
          · rw [if_neg hm, if_neg hm]
            by_cases hch : truthyChildrenT cso = false
            · rw [if_pos hch, if_pos hch, ih]
            · rw [if_neg hch, if_neg hch, ih]

/-- C2 counterexample: when *two* sibling response keys resolve to null and
both are declared non-null, only the first (in declared order) gets an
error - the null check returns at the first violation - so no error with
the second field's path `["q", "b"]` is appended, contradicting the
claim's per-field "appends exactly one error whose path is the full path
to that field". -/
theorem c2_second_violation_unreported :
    resolveNode (fun _ _ => true) 3
      [TNode.field "a" none "a" [] none, TNode.field "b" none "b" [] none]
      (.obj (GObj.mk "T" [("a", .fnull), ("b", .fnull)] [])) ["q"]
      = ([GErr.mk (nonNullMsg ["q", "a"]) ["q", "a"] none], .ok .null) ∧
    ["q", "b"] ∉ [GErr.mk (nonNullMsg ["q", "a"]) ["q", "a"] none].map GErr.path :=
  ⟨rfl, by decide⟩

/-- C2 (amended): the null check walks the declared response keys in order
and stops at the *first* null value of a non-null-declared field (checked
only when the path is nonempty): it appends exactly one error, whose path
is the full path to that field, and collapses the entire immediate parent
object to null (`return None` - partial siblings are dropped, and later
violations are not reported); when no entry violates, every value (nulls
included) is kept.  The collapse produces a normal null *value*, not an
exception, so it does not itself walk further up the ancestor chain. -/
theorem c2_nullability_collapse :
    (∀ (nn : String → String → Bool) (tname : String) (path : List String)
       (pre : List (String × String)) (k dn : String)
       (rest : List (String × String)) (finalD : List (String × RVal)),
      path.isEmpty = false →
      (∀ p ∈ pre,
        (isNullR ((dlookup p.1 finalD).getD .null) && nn tname p.2) = false) →
      isNullR ((dlookup k finalD).getD .null) = true →
      nn tname dn = true →
      sortPhase nn tname path (pre ++ (k, dn) :: rest) finalD
        = ([GErr.mk (nonNullMsg (path ++ [k])) (path ++ [k]) none], none)) ∧
    (∀ (nn : String → String → Bool) (tname : String) (path : List String)
       (entries : List (String × String)) (finalD : List (String × RVal)),
      (∀ p ∈ entries,
        (isNullR ((dlookup p.1 finalD).getD .null) && !path.isEmpty
          && nn tname p.2) = false) →
      sortPhase nn tname path entries finalD
        = ([], some (entries.map fun p => (p.1, (dlookup p.1 finalD).getD .null)))) ∧
    (∀ (nn : String → String → Bool) (f : Nat) (cs : List TNode) (o : GObj)
       (path : List String) (st : CFrame) (derrs : List GErr)
       (results : List (String × Except PExc RVal)) (gerrs serrs : List GErr)
       (finalD₁ : List (String × RVal)),
      classifyGo o f cs ⟨[], [], [], []⟩ = .ok st →
      runProms
        (fun p src => runProm (fun n v p₂ => resolveNode nn f (childrenOfT n) v p₂) p src)
        path st.proms = (derrs, results) →
      gatherLoop path results st.finalD = (gerrs, finalD₁) →
      sortPhase nn o.typeName path st.ntr2dn
        (includeGo (fun nm => dumpFVal f ((dlookup nm o.fields).getD .fnull))
          st.f2i finalD₁) = (serrs, none) →
      resolveNode nn (f + 1) cs (.obj o) path
        = (derrs ++ gerrs ++ serrs, .ok .null)) := by
  refine ⟨fun nn tname path => sortPhase_first_violation nn tname path,
    fun nn tname path => sortPhase_no_violation nn tname path, ?_⟩
  intro nn f cs o path st derrs results gerrs serrs finalD₁ hcl hrp hgl hsp
  rw [resolveNode_obj nn f cs o path st derrs results gerrs serrs finalD₁ none
    hcl hrp hgl hsp]

/-- Witness for `c2_nullability_collapse`: the query `{ a b }` against a
model whose `a` is null and declared non-null collapses the node to null
with the single error at `q.a`. -/
theorem c2_nullability_collapse_witness :
    resolveNode (fun _ _ => true) 3
      [TNode.field "a" none "a" [] none, TNode.field "b" none "b" [] none]
      (.obj (GObj.mk "T" [("a", .fnull), ("b", .fnull)] [])) ["q"]
      = ([] ++ [] ++ [GErr.mk (nonNullMsg ["q", "a"]) ["q", "a"] none],
         .ok .null) :=
  c2_nullability_collapse.2.2 (fun _ _ => true) 2
    [TNode.field "a" none "a" [] none, TNode.field "b" none "b" [] none]
    (GObj.mk "T" [("a", .fnull), ("b", .fnull)] []) ["q"]
    ⟨[], [("a", "a"), ("b", "b")], [("a", "a"), ("b", "b")], []⟩
    [] [] [] [GErr.mk (nonNullMsg ["q", "a"]) ["q", "a"] none] []
    rfl rfl rfl rfl

/-- C3 counterexample: when the failing function-backed field is declared
*non-null*, its failure does not leave the siblings intact: the captured
exception first yields an Internal Server Error entry and a null value, and
the null check then adds a *second* error for the same field and collapses
the whole parent to null, dropping the sibling `a`'s value - contradicting
"exactly one error entry" and "the resolved values of the other siblings
are identical". -/
theorem c3_failing_non_null_sibling_collapses_parent :
    resolveNode (fun t fl => t = "Q" && fl = "b") 3
      [TNode.field "a" none "a" [] none, TNode.field "b" none "b" [] none]
      (.obj (GObj.mk "Q" [("a", .scal (.intV 1))] [("b", .raiseStd "boom")])) ["q"]
      = ([GErr.mk "Internal Server Error" ["q", "b"] (some (.std "boom")),
          GErr.mk (nonNullMsg ["q", "b"]) ["q", "b"] none], .ok .null) ∧
    [GErr.mk "Internal Server Error" ["q", "b"] (some (PExc.std "boom")),
     GErr.mk (nonNullMsg ["q", "b"]) ["q", "b"] none].length ≠ 1 :=
  ⟨rfl, by decide⟩

/-- C3 (amended): in the gather loop, one sibling's exception is recovered
locally - its value becomes null and exactly one `Internal Server Error`
entry at its full path is appended - and the values recorded for all other
response keys are identical to the run where that sibling succeeds; the
subsequent null check then keeps the null (and the siblings) only when the
failing field is declared nullable, while a non-null declaration collapses
the parent (see the C2 theorem).  The closed conjunct runs three siblings
where the second throws: the first and third values are returned unchanged
with the single error referencing the second field's path. -/
theorem c3_failure_isolation :
    (∀ (path : List String) (pre post : List (String × Except PExc RVal))
       (fk msg : String) (v : RVal) (finalD : List (String × RVal)),
      (∀ p ∈ pre ++ post, ∃ w, p.2 = Except.ok w) →
      fk ∉ (pre ++ post).map Prod.fst →
      (gatherLoop path (pre ++ (fk, Except.error (PExc.std msg)) :: post) finalD).1
        = [GErr.mk "Internal Server Error" (path ++ [fk]) (some (.std msg))] ∧
      (gatherLoop path (pre ++ (fk, Except.ok v) :: post) finalD).1 = [] ∧
      dlookup fk
        (gatherLoop path (pre ++ (fk, Except.error (PExc.std msg)) :: post) finalD).2
        = some RVal.null ∧
      dlookup fk (gatherLoop path (pre ++ (fk, Except.ok v) :: post) finalD).2
        = some v ∧
      (∀ k₂, k₂ ≠ fk →
        dlookup k₂
          (gatherLoop path (pre ++ (fk, Except.error (PExc.std msg)) :: post) finalD).2
          = dlookup k₂
            (gatherLoop path (pre ++ (fk, Except.ok v) :: post) finalD).2)) ∧
    resolveNode (fun _ _ => false) 5
      [TNode.field "a" none "a" [] none, TNode.field "b" none "b" [] none,
       TNode.field "c" none "c" [] none]
      (.obj (GObj.mk "Q" []
        [("a", .ok (.scal (.intV 1))), ("b", .raiseStd "boom"),
         ("c", .ok (.scal (.intV 3)))])) ["q"]
      = ([GErr.mk "Internal Server Error" ["q", "b"] (some (.std "boom"))],
         .ok (.dict [("a", .raw (.scal (.intV 1))), ("b", .null),
                     ("c", .raw (.scal (.intV 3)))])) := by
  have hfm : ∀ (path : List String) (l : List (String × Except PExc RVal)),
      (∀ p ∈ l, ∃ w, p.2 = Except.ok w) →
      l.filterMap (gatherErr path) = [] := by
    intro path l hl
    induction l with
    | nil => rfl
    | cons p rest ih =>
      obtain ⟨w, hw⟩ := hl p (List.mem_cons_self _ _)
      rw [List.filterMap_cons]
      have : gatherErr path p = none := by
        simp [gatherErr, hw]
      rw [this]
      exact ih fun p hp => hl p (List.mem_cons_of_mem _ hp)
  refine ⟨?_, rfl⟩
  intro path pre post fk msg v finalD hok hfresh
  have hokpre : ∀ p ∈ pre, ∃ w, p.2 = Except.ok w :=
    fun p hp => hok p (List.mem_append.mpr (Or.inl hp))
  have hokpost : ∀ p ∈ post, ∃ w, p.2 = Except.ok w :=
    fun p hp => hok p (List.mem_append.mpr (Or.inr hp))
  have hfr : fk ∉ post.map Prod.fst := by
    intro hmem
    exact hfresh (by simp [hmem])
  refine ⟨?_, ?_, ?_, ?_, ?_⟩
  · rw [gatherLoop_errs, List.filterMap_append, hfm path pre hokpre,
      List.filterMap_cons]
    have : gatherErr path (fk, Except.error (PExc.std msg))
        = some (GErr.mk "Internal Server Error" (path ++ [fk]) (some (.std msg))) := rfl
    rw [this, hfm path post hokpost]
    rfl
  · rw [gatherLoop_errs, List.filterMap_append, hfm path pre hokpre,
      List.filterMap_cons]
    have : gatherErr path (fk, Except.ok v) = none := rfl
    rw [this, hfm path post hokpost]
    rfl
  · rw [gatherLoop_dict, gatherFold_append]
    rw [show gatherFold ((fk, Except.error (PExc.std msg)) :: post)
        (gatherFold pre finalD)
        = gatherFold post (dinsert fk RVal.null (gatherFold pre finalD)) from rfl]
    rw [dlookup_gatherFold_not_mem post _ fk hfr]
    exact dlookup_dinsert_self _ _ _
  · rw [gatherLoop_dict, gatherFold_append]
    rw [show gatherFold ((fk, Except.ok v) :: post) (gatherFold pre finalD)
        = gatherFold post (dinsert fk v (gatherFold pre finalD)) from rfl]
    rw [dlookup_gatherFold_not_mem post _ fk hfr]
    exact dlookup_dinsert_self _ _ _
  · intro k₂ hk₂
    rw [gatherLoop_dict, gatherLoop_dict, gatherFold_append, gatherFold_append]
    rw [show gatherFold ((fk, Except.error (PExc.std msg)) :: post)
        (gatherFold pre finalD)
        = gatherFold post (dinsert fk RVal.null (gatherFold pre finalD)) from rfl]
    rw [show gatherFold ((fk, Except.ok v) :: post) (gatherFold pre finalD)
        = gatherFold post (dinsert fk v (gatherFold pre finalD)) from rfl]
    refine dlookup_gatherFold_congr_except fk post _ _ ?_ k₂ hk₂
    intro k₃ hk₃
    rw [dlookup_dinsert_ne _ _ hk₃, dlookup_dinsert_ne _ _ hk₃]

/-- Witness for `c3_failure_isolation`: siblings `a` and `c` succeed, `b`
throws - the gather loop records exactly the one internal error at
`q.b`. -/
theorem c3_failure_isolation_witness :
    (gatherLoop ["q"]
      ([("a", Except.ok (RVal.intV 1))]
        ++ ("b", Except.error (PExc.std "boom")) :: [("c", Except.ok (RVal.intV 3))])
      []).1
      = [GErr.mk "Internal Server Error" ["q", "b"] (some (.std "boom"))] :=
  (c3_failure_isolation.1 ["q"] [("a", Except.ok (RVal.intV 1))]
    [("c", Except.ok (RVal.intV 3))] "b" "boom" (RVal.intV 2) []
    (by
      intro p hp
      rcases List.mem_append.mp hp with h | h
      · rw [List.mem_singleton] at h
        subst h
        exact ⟨RVal.intV 1, rfl⟩
      · rw [List.mem_singleton] at h
        subst h
        exact ⟨RVal.intV 3, rfl⟩)
    (by decide)).1

/-- C4: (i) whenever `resolve_node` produces a result dict, its key order is
the declared response-key order of the (merged) sibling selection - matching
inline fragments spliced in place - provided those keys are distinct;
(ii) the ordering pass reads the gathered `final_d` only through keyed
lookup, so any reordering of it (any completion order of the sibling
resolvers) leaves the output unchanged; (iii) a model exposing the same
fields under keyed lookup in any declaration order resolves identically. -/
theorem c4_result_key_order :
    (∀ (nn : String → String → Bool) (f : Nat) (cs : List TNode) (o : GObj)
       (path : List String) (errs : List GErr) (d : List (String × RVal)),
      resolveNode nn (f + 1) cs (.obj o) path = (errs, .ok (.dict d)) →
      (rawRespKeys o.typeName f cs).Nodup →
      d.map Prod.fst = rawRespKeys o.typeName f cs) ∧
    (∀ (nn : String → String → Bool) (tname : String) (path : List String)
       (entries : List (String × String)) (finalD finalD₂ : List (String × RVal)),
      (∀ k, dlookup k finalD = dlookup k finalD₂) →
      sortPhase nn tname path entries finalD
        = sortPhase nn tname path entries finalD₂) ∧
    (∀ (nn : String → String → Bool) (f : Nat) (cs : List TNode) (o o₂ : GObj)
       (path : List String),
      o.typeName = o₂.typeName → o.methods = o₂.methods →
      (∀ nm, dlookup nm o.fields = dlookup nm o₂.fields) →
      resolveNode nn (f + 1) cs (.obj o) path
        = resolveNode nn (f + 1) cs (.obj o₂) path) := by
  refine ⟨?_, fun nn tname path => sortPhase_lookup_invariance nn tname path, ?_⟩
  · intro nn f cs o path errs d hok hnd
    cases hcl : classifyGo o f cs ⟨[], [], [], []⟩ with
    | error e =>
      have hre : resolveNode nn (f + 1) cs (.obj o) path = ([], .error e) := by
        show (match classifyGo o f cs ⟨[], [], [], []⟩ with
              | .error e₂ => (([] : List GErr), Except.error e₂)
              | .ok st₂ =>
                resolveFrame (fun n v p₂ => resolveNode nn f (childrenOfT n) v p₂)
                  nn f o path st₂) = _
        rw [hcl]
      rw [hre] at hok
      simp at hok
    | ok st =>
      rcases hrp : runProms
        (fun p src => runProm (fun n v p₂ => resolveNode nn f (childrenOfT n) v p₂) p src)
        path st.proms with ⟨derrs, results⟩
      rcases hgl : gatherLoop path results st.finalD with ⟨gerrs, finalD₁⟩
      rcases hsp : sortPhase nn o.typeName path st.ntr2dn
        (includeGo (fun nm => dumpFVal f ((dlookup nm o.fields).getD .fnull))
          st.f2i finalD₁) with ⟨serrs, res⟩
      rw [resolveNode_obj nn f cs o path st derrs results gerrs serrs finalD₁ res
        hcl hrp hgl hsp] at hok
      cases res with
      | none => simp at hok
      | some d₂ =>
        have hd : d₂ = d := by
          have := congrArg Prod.snd hok
          simpa using this
        subst hd
        have hkeys := sortPhase_keys nn o.typeName path st.ntr2dn _ serrs d₂ hsp
        rw [hkeys]
        have hfr : ∀ k ∈ rawRespKeys o.typeName f cs,
            dlookup k (⟨[], [], [], []⟩ : CFrame).ntr2dn = none := by
          intro k _
          rfl
        have := classifyGo_ntr2dn_keys o f cs ⟨[], [], [], []⟩ st hcl hnd hfr
        simpa using this
  · intro nn f cs o o₂ path htn hms hfl
    show (match classifyGo o f cs ⟨[], [], [], []⟩ with
          | .error e => (([] : List GErr), Except.error e)
          | .ok st =>
            resolveFrame (fun n v p₂ => resolveNode nn f (childrenOfT n) v p₂)
              nn f o path st)
        = (match classifyGo o₂ f cs ⟨[], [], [], []⟩ with
          | .error e => (([] : List GErr), Except.error e)
          | .ok st =>
            resolveFrame (fun n v p₂ => resolveNode nn f (childrenOfT n) v p₂)
              nn f o₂ path st)
    rw [classifyGo_fields_congr o o₂ htn hms hfl f cs ⟨[], [], [], []⟩]
    cases classifyGo o₂ f cs (⟨[], [], [], []⟩ : CFrame) with
    | error e => rfl
    | ok st =>
      have hdump : (fun nm => dumpFVal f ((dlookup nm o.fields).getD FVal.fnull))
          = fun nm => dumpFVal f ((dlookup nm o₂.fields).getD FVal.fnull) :=
        funext fun nm => by rw [hfl nm]
      simp only [resolveFrame, hdump, htn]

/-- Witness for `c4_result_key_order`: the model declares `b` before `a`,
the query asks `{ a b }` - the result keys come out `[a, b]`, the declared
selection order. -/
theorem c4_result_key_order_witness :
    ([("a", RVal.intV 1), ("b", RVal.intV 2)].map Prod.fst)
      = rawRespKeys "T" 2
          [TNode.field "a" none "a" [] none, TNode.field "b" none "b" [] none] :=
  c4_result_key_order.1 (fun _ _ => false) 2
    [TNode.field "a" none "a" [] none, TNode.field "b" none "b" [] none]
    (GObj.mk "T" [("b", .scal (.intV 2)), ("a", .scal (.intV 1))] []) ["q"]
    [] [("a", RVal.intV 1), ("b", RVal.intV 2)] rfl (by decide)

/-- C10: `if path:` - at the operation root (`resolve_root_nodes` resolves
with `path=()`), the null check is skipped: (i) the sort pass with an empty
path keeps every declared key, null values included, and records no error,
whatever `is_not_nullable_map` declares; (ii) `resolve_node` at the empty
path therefore returns the full result dict (never collapsing to null) and
appends only the gather-phase errors. -/
theorem c10_root_null_enforcement_skipped :
    (∀ (nn : String → String → Bool) (tname : String)
       (entries : List (String × String)) (finalD : List (String × RVal)),
      sortPhase nn tname [] entries finalD
        = ([], some (entries.map fun p => (p.1, (dlookup p.1 finalD).getD .null)))) ∧
    (∀ (nn : String → String → Bool) (f : Nat) (cs : List TNode) (o : GObj)
       (st : CFrame) (derrs : List GErr)
       (results : List (String × Except PExc RVal)) (gerrs : List GErr)
       (finalD₁ : List (String × RVal)),
      classifyGo o f cs ⟨[], [], [], []⟩ = .ok st →
      runProms
        (fun p src => runProm (fun n v p₂ => resolveNode nn f (childrenOfT n) v p₂) p src)
        [] st.proms = (derrs, results) →
      gatherLoop [] results st.finalD = (gerrs, finalD₁) →
      resolveNode nn (f + 1) cs (.obj o) []
        = (derrs ++ gerrs,
           .ok (.dict (st.ntr2dn.map fun p =>
             (p.1, (dlookup p.1
               (includeGo (fun nm => dumpFVal f ((dlookup nm o.fields).getD .fnull))
                 st.f2i finalD₁)).getD .null))))) := by
  refine ⟨fun nn tname => sortPhase_root nn tname, ?_⟩
  intro nn f cs o st derrs results gerrs finalD₁ hcl hrp hgl
  rw [resolveNode_obj nn f cs o [] st derrs results gerrs [] finalD₁
    (some (st.ntr2dn.map fun p =>
      (p.1, (dlookup p.1
        (includeGo (fun nm => dumpFVal f ((dlookup nm o.fields).getD .fnull))
          st.f2i finalD₁)).getD .null)))
    hcl hrp hgl (sortPhase_root nn o.typeName st.ntr2dn _)]
  simp

/-- Witness for `c10_root_null_enforcement_skipped`: a root query `{ a }`
whose `a` is null and declared non-null still returns `{a: null}` with no
error. -/
theorem c10_root_null_enforcement_skipped_witness :
    resolveNode (fun _ _ => true) 3 [TNode.field "a" none "a" [] none]
      (.obj (GObj.mk "T" [("a", .fnull)] [])) []
      = ([] ++ [],
         .ok (.dict ([("a", "a")].map fun p =>
           (p.1, (dlookup p.1
             (includeGo (fun nm => dumpFVal 2
               ((dlookup nm (GObj.mk "T" [("a", FVal.fnull)] []).fields).getD .fnull))
               [("a", "a")] [])).getD .null)))) :=
  c10_root_null_enforcement_skipped.2 (fun _ _ => true) 2
    [TNode.field "a" none "a" [] none] (GObj.mk "T" [("a", .fnull)] [])
    ⟨[], [("a", "a")], [("a", "a")], []⟩ [] [] [] [] rfl rfl rfl

end FastGQL
